import Mathlib

/-!
# ADS_set: a hash set with separate chaining

A shallow embedding of `src/ADS_set.h` and a verification of its contract.

Conventions of the embedding.

* A `Node*` is modelled by the part of the chain that starts at that node:
  `[]` is `nullptr`, and for `k :: next` the node holds `key = k` and its
  `next` pointer is `next`.  A chain head `table[idx].front` is therefore
  the list of the keys of the chain, head first.
* The bucket array `table` is the list of its chain heads; `table_size` is
  kept as a field of its own, as in the source.
* A `list*` into the bucket array is modelled by the index of the cell.
* `size_type` values are natural numbers (no reachable state holds `2^64`
  nodes, so no counter wraps).
* The field `max_lf` is the `float` nearest to `0.7` in every object (it is
  initialised to `0.7` and only ever copied or swapped between objects):
  `11744051 / 2^24`.  The expressions `requested_size > table_size * max_lf`
  and `size_type(size_ / max_lf)` are computed as the code does, in single
  precision (binary32, round to nearest, ties to even), with exact integer
  arithmetic on scaled values: see `round_sig`, `exceeds_load` and
  `size_over_max_lf`.  Sizes are far below the range of `float`, so the
  exponent is not bounded.
* `Key` has decidable equality (`key_equal`), the hash function `hasher`
  and the template constant `N` are parameters.
* Heap allocation is not part of the state of a set.  The deallocation loop
  of `clear` is `clear_chain`; when it reads a node it has deleted, `clear`
  (and with it the destructor and the assignments, which destroy a temporary)
  has no result: `none`.
-/

set_option linter.unusedSectionVars false

namespace ADS

variable {Key : Type} [DecidableEq Key]

/-- The data members of `ADS_set<Key, N>`: `table`, `size_`, `table_size`. -/
structure ADS_set (Key : Type) where
  table : List (List Key)
  size_ : Nat
  table_size : Nat
deriving DecidableEq

/-- The data members of `ADS_set::Iterator`: `listPos`, `tablePos`, `end`. -/
structure Iterator (Key : Type) where
  listPos : List Key
  tablePos : Nat
  end_ : Nat
deriving DecidableEq

/-- The chain head `table[idx].front`. -/
def front (table : List (List Key)) (idx : Nat) : List Key :=
  (table[idx]?).getD []

/-- The state of an object before the body of a constructor runs:
`table{nullptr}`, `size_{0}`, `table_size{0}`. -/
def fresh : ADS_set Key :=
  { table := [], size_ := 0, table_size := 0 }

/-- The member `hash_of`: `hasher{}(key) % table_size`. -/
def hash_of (hasher : Key → Nat) (s : ADS_set Key) (key : Key) : Nat :=
  hasher key % s.table_size

/-- The loop of `find_`: walks the chain from `temp` and returns the first
node whose key equals `key`, or `nullptr`. -/
def find_loop (key : Key) : List Key → List Key
  | [] => []
  | k :: next => if k = key then k :: next else find_loop key next

/-- The member `find_`. -/
def find_ (hasher : Key → Nat) (s : ADS_set Key) (key : Key) : List Key :=
  find_loop key (front s.table (hash_of hasher s key))

/-- The member `insert_`: links a new node in front of the chain of the
bucket of the key, increments `size_`, returns the new chain head. -/
def insert_ (hasher : Key → Nat) (s : ADS_set Key) (key : Key) :
    ADS_set Key × List Key :=
  let idx := hash_of hasher s key
  let temp : List Key :=
    if front s.table idx = [] then [key] else key :: front s.table idx
  ({ table := s.table.set idx temp, size_ := s.size_ + 1,
     table_size := s.table_size }, temp)

/-- The loop over all nodes of the old table in `rehash`, and of the keys of
a range: inserts every key of `keys` in order with `insert_`. -/
def insert_all (hasher : Key → Nat) (s : ADS_set Key) (keys : List Key) :
    ADS_set Key :=
  keys.foldl (fun a key => (insert_ hasher a key).1) s

/-- The number of binary digits of `n`, looking at no more than `fuel` of
them. -/
def bit_length_aux : Nat → Nat → Nat
  | 0, _ => 0
  | fuel + 1, n => if n = 0 then 0 else bit_length_aux fuel (n / 2) + 1

/-- The number of binary digits of `n`. -/
def bit_length (n : Nat) : Nat := bit_length_aux n n

/-- The integer nearest to `a / b`, the even one of the two when `a / b` is
half way between them. -/
def round_half_even (a b : Nat) : Nat :=
  if 2 * (a % b) < b then a / b
  else if b < 2 * (a % b) then a / b + 1
  else if (a / b) % 2 = 0 then a / b
  else a / b + 1

/-- The value `a / b` rounded to 24 significant binary digits, to nearest
and ties to even, as a binary32 operation rounds its exact result.  It is
used on values that are integers of at most 24 digits (kept as they are) or
at least `2^23` (so that the digits dropped are those below the 24th). -/
def round_sig (a b : Nat) : Nat :=
  round_half_even a (b * 2 ^ (bit_length (a / b) - 24)) *
    2 ^ (bit_length (a / b) - 24)

/-- The conversion of a `size_type` value to `float`; the result is an
integer. -/
def to_float (n : Nat) : Nat := round_sig n 1

/-- The numerator of `max_lf`: `float max_lf{ 0.7 }` is `11744051 / 2^24`. -/
def max_lf_num : Nat := 11744051

/-- The `float` product `x * max_lf` of an integer-valued `float` `x`, in
units of `2^-24`: the exact product is `x * 11744051` such units. -/
def mul_max_lf (x : Nat) : Nat := round_sig (x * max_lf_num) 1

/-- The test `requested_size > table_size * max_lf` of `reserve`: both sizes
are converted to `float`, the product is rounded to `float`. -/
def exceeds_load (requested_size table_size : Nat) : Bool :=
  decide (mul_max_lf (to_float table_size) < to_float requested_size * 2 ^ 24)

/-- The expression `size_type(size_ / max_lf)` of `rehash`: the `float`
quotient (in units of `2^-24` it is `x * 2^48 / 11744051` rounded), cut to an
integer. -/
def size_over_max_lf (size_ : Nat) : Nat :=
  round_sig (to_float size_ * 2 ^ 48) max_lf_num / 2 ^ 24

/-- The member `rehash`. -/
def rehash (N : Nat) (hasher : Key → Nat) (s : ADS_set Key)
    (requested_table_size : Nat) : ADS_set Key :=
  let old_table_size := s.table_size
  let new_table_size := max N (max requested_table_size (size_over_max_lf s.size_))
  let old_table := s.table
  let s0 : ADS_set Key :=
    { table := List.replicate new_table_size [], size_ := 0,
      table_size := new_table_size }
  (List.range old_table_size).foldl
    (fun a idx => insert_all hasher a (front old_table idx)) s0

/-- The `do ... while` loop of `reserve`, run for at most `fuel` rounds:
`new_table_size = new_table_size * 2 + 1` while
`requested_size > new_table_size * max_lf`. -/
def grow_loop (requested_size : Nat) : Nat → Nat → Nat
  | 0, new_table_size => new_table_size * 2 + 1
  | fuel + 1, new_table_size =>
    let n := new_table_size * 2 + 1
    if exceeds_load requested_size n then grow_loop requested_size fuel n else n

/-- The `do ... while` loop of `reserve`.  The loop ends within
`2 * requested_size` rounds (see `grow_unfold`), which is the number of
rounds given to `grow_loop`. -/
def grow (requested_size new_table_size : Nat) : Nat :=
  grow_loop requested_size (2 * requested_size) new_table_size

/-- The member `reserve`. -/
def reserve (N : Nat) (hasher : Key → Nat) (s : ADS_set Key)
    (requested_size : Nat) : ADS_set Key :=
  if exceeds_load requested_size s.table_size then
    rehash N hasher s (grow requested_size s.table_size)
  else s

/-- The loop `while (tablePos != end)` of `skipToFirst` and `skipToNext`:
`cells` are the cells of the bucket array from `tablePos` on.  It stops at the
first cell with a chain, or at `end` with no current node.  (The bucket array
ends where `cells` does; every iterator the set builds has
`end == &table[table_size]`.) -/
def scan : List (List Key) → Nat → Nat → Iterator Key
  | [], tablePos, end_ => ⟨[], tablePos, end_⟩
  | chain :: cells, tablePos, end_ =>
    if tablePos = end_ then ⟨[], tablePos, end_⟩
    else if chain ≠ [] then ⟨chain, tablePos, end_⟩
    else scan cells (tablePos + 1) end_

/-- The member `Iterator::skipToFirst`. -/
def skipToFirst (table : List (List Key)) (it : Iterator Key) : Iterator Key :=
  scan (table.drop it.tablePos) it.tablePos it.end_

/-- The member `Iterator::skipToNext` (`operator++`); `none` when it reads
`listPos->next` with `listPos == nullptr`. -/
def skipToNext (table : List (List Key)) (it : Iterator Key) :
    Option (Iterator Key) :=
  if it.tablePos = it.end_ then some it
  else
    match it.listPos with
    | [] => none
    | _ :: next =>
      if next ≠ [] then some { it with listPos := next }
      else some (scan (table.drop (it.tablePos + 1)) (it.tablePos + 1) it.end_)

/-- The member `Iterator::operator*`; `none` when `listPos == nullptr`. -/
def deref (it : Iterator Key) : Option Key :=
  it.listPos.head?

/-- The constructor `Iterator(list* tablePos, list* end)`. -/
def Iterator.init (table : List (List Key)) (tablePos end_ : Nat) :
    Iterator Key :=
  skipToFirst table ⟨[], tablePos, end_⟩

/-- The member `begin`. -/
def begin (s : ADS_set Key) : Iterator Key :=
  Iterator.init s.table 0 s.table_size

/-- The member `end`. -/
def end_ (s : ADS_set Key) : Iterator Key :=
  Iterator.init s.table s.table_size s.table_size

/-- The member `find`. -/
def find (hasher : Key → Nat) (s : ADS_set Key) (key : Key) : Iterator Key :=
  let ptr := find_ hasher s key
  if ptr ≠ [] then
    let idx := hash_of hasher s key
    ⟨ptr, idx, s.table_size⟩
  else end_ s

/-- The member `count`. -/
def count (hasher : Key → Nat) (s : ADS_set Key) (key : Key) : Nat :=
  if find hasher s key = end_ s then 0 else 1

/-- The member `size`. -/
def size (s : ADS_set Key) : Nat := s.size_

/-- The member `empty`. -/
def empty (s : ADS_set Key) : Bool := s.size_ == 0

/-- The member `insert(const key_type&)`: the new state, the returned
iterator and the returned flag. -/
def insert (N : Nat) (hasher : Key → Nat) (s : ADS_set Key) (key : Key) :
    ADS_set Key × Iterator Key × Bool :=
  let i := find hasher s key
  if i ≠ end_ s then (s, i, false)
  else
    let s1 := reserve N hasher s (s.size_ + 1)
    let r := insert_ hasher s1 key
    let idx := hash_of hasher r.1 key
    (r.1, ⟨r.2, idx, r.1.table_size⟩, true)

/-- The member `insert(InputIt first, InputIt last)`, to which
`insert(std::initializer_list)` forwards; the range is the list of the keys
it yields. -/
def insert_range (N : Nat) (hasher : Key → Nat) (s : ADS_set Key) :
    List Key → ADS_set Key
  | [] => s
  | key :: rest =>
    if count hasher s key = 0 then
      insert_range N hasher
        (insert_ hasher (reserve N hasher s (s.size_ + 1)) key).1 rest
    else insert_range N hasher s rest

/-- The `while` loop of `erase`: from `temp`, returns the nodes passed (the
last of them is `previous`) and the node `temp` it stops at. -/
def erase_loop (key : Key) : List Key → List Key × List Key
  | [] => ([], [])
  | k :: next =>
    if k ≠ key then (k :: (erase_loop key next).1, (erase_loop key next).2)
    else ([], k :: next)

/-- The member `erase`: the new state and the returned count. -/
def erase (hasher : Key → Nat) (s : ADS_set Key) (key : Key) :
    ADS_set Key × Nat :=
  let idx := hash_of hasher s key
  let r := erase_loop key (front s.table idx)
  match r.2 with
  | [] => (s, 0)
  | _ :: next =>
    if r.1 = [] then
      ({ table := s.table.set idx next, size_ := s.size_ - 1,
         table_size := s.table_size }, 1)
    else
      ({ table := s.table.set idx (r.1 ++ next), size_ := s.size_ - 1,
         table_size := s.table_size }, 1)

/-- How the loop of `clear` on one chain ends: it leaves the loop with the
nodes `deleted` passed to `delete`, or it reads `current->next` on a node it
has passed to `delete` before. -/
inductive ClearOutcome (Key : Type) where
  | done (deleted : List (List Key)) : ClearOutcome Key
  | use_after_free (deleted : List (List Key)) : ClearOutcome Key
deriving DecidableEq

/-- The loop `while (current != nullptr)` of `clear` on one chain, from
`current`, with the nodes passed to `delete` so far: each round reads
`current->next` into `current` and then passes `current` to `delete`
(`delete nullptr` does nothing and is not recorded). -/
def clear_chain : List Key → List (List Key) → ClearOutcome Key
  | [], deleted => ClearOutcome.done deleted
  | k :: next, deleted =>
    if (k :: next) ∈ deleted then ClearOutcome.use_after_free deleted
    else clear_chain next (if next = [] then deleted else deleted ++ [next])

/-- The `for` loop of `clear` over the bucket indices `idxs`: the inner loop
runs on the chain of the bucket, then the chain head is set to `nullptr`.
There is no result (`none`) when the inner loop reads a deleted node. -/
def clear_buckets : List Nat → List (List Key) → Option (List (List Key))
  | [], table => some table
  | idx :: idxs, table =>
    match clear_chain (front table idx) [] with
    | ClearOutcome.use_after_free _ => none
    | ClearOutcome.done _ => clear_buckets idxs (table.set idx [])

/-- The member `clear`: the state it leaves, or `none` when its loop reads a
deleted node. -/
def clear (s : ADS_set Key) : Option (ADS_set Key) :=
  match clear_buckets (List.range s.table_size) s.table with
  | none => none
  | some table => some { table := table, size_ := 0, table_size := s.table_size }

/-- The destructor: `clear()`, then the bucket array is released; `none`
when `clear` has no result. -/
def dtor (s : ADS_set Key) : Option Unit :=
  match clear s with
  | none => none
  | some _ => some ()

/-- The member `swap`: the new states of `*this` and of `other`. -/
def swap (s other : ADS_set Key) : ADS_set Key × ADS_set Key :=
  (other, s)

/-- The default constructor. -/
def ctor (N : Nat) (hasher : Key → Nat) : ADS_set Key :=
  rehash N hasher fresh N

/-- The constructors from an initializer list and from a range. -/
def ctor_range (N : Nat) (hasher : Key → Nat) (keys : List Key) : ADS_set Key :=
  insert_range N hasher (rehash N hasher fresh N) keys

/-- The `while (current != other.end())` loop of the copy constructor, run
for at most `fuel` rounds; `none` when the rounds run out or the iterator
reads a null node. -/
def copy_loop (hasher : Key → Nat) (other : ADS_set Key) :
    Nat → Iterator Key → ADS_set Key → Option (ADS_set Key)
  | 0, current, s => if current ≠ end_ other then none else some s
  | fuel + 1, current, s =>
    if current ≠ end_ other then
      match deref current, skipToNext other.table current with
      | some key, some next =>
        copy_loop hasher other fuel next (insert_ hasher s key).1
      | _, _ => none
    else some s

/-- The copy constructor. -/
def copy_ctor (N : Nat) (hasher : Key → Nat) (fuel : Nat) (other : ADS_set Key) :
    Option (ADS_set Key) :=
  let s0 := rehash N hasher fresh other.table_size
  match copy_loop hasher other fuel (begin other) s0 with
  | none => none
  | some s1 =>
    some { table := s1.table, size_ := other.size_, table_size := s1.table_size }

/-- The copy assignment for `this != &other`: the new state of `*this`.  The
temporary copy is swapped in, and the temporary, which then holds the old
state, is destroyed. -/
def assign (N : Nat) (hasher : Key → Nat) (fuel : Nat) (s other : ADS_set Key) :
    Option (ADS_set Key) :=
  match copy_ctor N hasher fuel other with
  | none => none
  | some tmp =>
    match dtor (swap s tmp).2 with
    | none => none
    | some _ => some (swap s tmp).1

/-- The assignment from an initializer list: the new state of `*this`.  The
temporary built from the list is swapped in, and the temporary, which then
holds the old state, is destroyed. -/
def assign_ilist (N : Nat) (hasher : Key → Nat) (s : ADS_set Key)
    (ilist : List Key) : Option (ADS_set Key) :=
  match dtor (swap s (ctor_range N hasher ilist)).2 with
  | none => none
  | some _ => some (swap s (ctor_range N hasher ilist)).1

/-- The range-for loop of `operator==`, run for at most `fuel` rounds. -/
def eq_loop (hasher : Key → Nat) (lhs rhs : ADS_set Key) :
    Nat → Iterator Key → Option Bool
  | 0, it => if it ≠ end_ rhs then none else some true
  | fuel + 1, it =>
    if it ≠ end_ rhs then
      match deref it with
      | none => none
      | some k =>
        if count hasher lhs k < 1 then some false
        else
          match skipToNext rhs.table it with
          | none => none
          | some next => eq_loop hasher lhs rhs fuel next
    else some true

/-- The friend `operator==`. -/
def op_eq (hasher : Key → Nat) (fuel : Nat) (lhs rhs : ADS_set Key) :
    Option Bool :=
  if lhs.size_ ≠ rhs.size_ then some false
  else eq_loop hasher lhs rhs fuel (begin rhs)

/-- The loop `for (it = begin(); it != end(); ++it)` of a client that reads
`*it` in every round: the keys read, for at most `fuel` rounds. -/
def iterate (s : ADS_set Key) : Nat → Iterator Key → Option (List Key)
  | 0, it => if it ≠ end_ s then none else some []
  | fuel + 1, it =>
    if it ≠ end_ s then
      match deref it, skipToNext s.table it with
      | some key, some next => (iterate s fuel next).map (fun ks => key :: ks)
      | _, _ => none
    else some []

/-- The sets an `ADS_set<Key, N>` object can hold: built by a constructor
and any sequence of public operations. -/
inductive Reachable (N : Nat) (hasher : Key → Nat) : ADS_set Key → Prop
  | ctor : Reachable N hasher (ctor N hasher)
  | ctor_range (keys : List Key) : Reachable N hasher (ctor_range N hasher keys)
  | copy_ctor {other c : ADS_set Key} (fuel : Nat) :
      Reachable N hasher other → copy_ctor N hasher fuel other = some c →
      Reachable N hasher c
  | assign {s other c : ADS_set Key} (fuel : Nat) :
      Reachable N hasher s → Reachable N hasher other →
      assign N hasher fuel s other = some c → Reachable N hasher c
  | assign_ilist {s c : ADS_set Key} (ilist : List Key) :
      Reachable N hasher s → assign_ilist N hasher s ilist = some c →
      Reachable N hasher c
  | insert {s : ADS_set Key} (key : Key) :
      Reachable N hasher s → Reachable N hasher (insert N hasher s key).1
  | insert_range {s : ADS_set Key} (keys : List Key) :
      Reachable N hasher s → Reachable N hasher (insert_range N hasher s keys)
  | erase {s : ADS_set Key} (key : Key) :
      Reachable N hasher s → Reachable N hasher (erase hasher s key).1
  | clear {s c : ADS_set Key} :
      Reachable N hasher s → clear s = some c → Reachable N hasher c
  | swap_fst {s other : ADS_set Key} :
      Reachable N hasher s → Reachable N hasher other →
      Reachable N hasher (swap s other).1
  | swap_snd {s other : ADS_set Key} :
      Reachable N hasher s → Reachable N hasher other →
      Reachable N hasher (swap s other).2

/-- Scenario A of the specification on `ADS_set<unsigned, 7>` with the
identity hash: the default set after `insert` of 1, 2, 3. -/
def scenarioA : ADS_set Nat :=
  (insert 7 id (insert 7 id (insert 7 id (ctor 7 id) 1).1 2).1 3).1

/-- Scenario B of the specification: scenario A after `insert` of 4 and 5. -/
def scenarioB : ADS_set Nat :=
  (insert 7 id (insert 7 id scenarioA 4).1 5).1

/-! ## Invariants and auxiliary notions -/

/-- The representation invariant of the table: the array has `table_size`
cells, at least one; every key sits in the bucket of its hash; no key is
stored twice; `size_` counts the nodes. -/
structure WF (hasher : Key → Nat) (s : ADS_set Key) : Prop where
  len : s.table.length = s.table_size
  pos : 0 < s.table_size
  bucket : ∀ i k, k ∈ front s.table i → hasher k % s.table_size = i
  nodup : s.table.flatten.Nodup
  size : s.size_ = s.table.flatten.length

/-- The state `rehash` starts to fill: `new_table_size` empty chains. -/
def blank (new_table_size : Nat) : ADS_set Key :=
  { table := List.replicate new_table_size [], size_ := 0,
    table_size := new_table_size }

/-- An iterator of the table `t` in a state the set hands out or `operator++`
yields: `end` is the end of the array, and either it is the end iterator or
its node is a node of the chain of its bucket. -/
def Iterator.Valid (t : List (List Key)) (it : Iterator Key) : Prop :=
  it.end_ = t.length ∧
  ((it.tablePos = t.length ∧ it.listPos = []) ∨
   (it.tablePos < t.length ∧ it.listPos ≠ [] ∧ it.listPos <:+ front t it.tablePos))

/-- The keys from the node of the iterator to the end of the table. -/
def remaining (t : List (List Key)) (it : Iterator Key) : List Key :=
  it.listPos ++ (t.drop (it.tablePos + 1)).flatten

/-- The set the copy constructor builds from `other`: the keys of `other`,
in iteration order, inserted into a blank table of the same capacity, with
`size_` taken from `other`. -/
def copy_of (hasher : Key → Nat) (other : ADS_set Key) : ADS_set Key :=
  { table := (insert_all hasher (blank other.table_size) other.table.flatten).table,
    size_ := other.size_,
    table_size := (insert_all hasher (blank other.table_size) other.table.flatten).table_size }

/-- The invariant of the reachable sets: the representation invariant, the
minimum capacity, and the load test of `reserve` does not ask for growth at
the current size. -/
structure Inv (N : Nat) (hasher : Key → Nat) (s : ADS_set Key) : Prop where
  wf : WF hasher s
  ge : N ≤ s.table_size
  load : exceeds_load s.size_ s.table_size = false

/-- The sequence of capacities of the growth rule, from the capacity `t`:
`growth_seq t 0 = t`, `t_1 = 2 * t + 1` and `t_{i+1} = 2 * t_i + 1`. -/
def growth_seq (t : Nat) : Nat → Nat
  | 0 => t
  | i + 1 => 2 * growth_seq t i + 1

/-- The `while` loop of `dump` on the output `o`: ` -> ` and the key, for each
node from `temp` on. -/
def dump_chain (show_key : Key → String) : String → List Key → String
  | o, [] => o
  | o, k :: next => dump_chain show_key (o ++ " -> " ++ show_key k) next

/-- The member `dump`: the text written to `o` (empty before the call);
`show_key` is `operator<<` on keys, and numbers are written in decimal. -/
def dump (N : Nat) (show_key : Key → String) (s : ADS_set Key) : String :=
  (List.range s.table_size).foldl
    (fun o idx => dump_chain show_key (o ++ toString idx ++ ": ") (front s.table idx) ++ "\n")
    ("curr_size = " ++ toString s.size_ ++ " table_size = " ++ toString N ++ "\n")

/-- The text of one chain in the dump format: ` -> <key>` for each key. -/
def keys_text (show_key : Key → String) : List Key → String
  | [] => ""
  | k :: ks => " -> " ++ show_key k ++ keys_text show_key ks

/-- The lines of the dump format for the bucket indices `idxs`: for each,
`<idx>: `, the text of its chain, and a newline. -/
def lines_text (show_key : Key → String) (table : List (List Key)) : List Nat → String
  | [] => ""
  | idx :: idxs =>
    toString idx ++ ": " ++ keys_text show_key (front table idx) ++ "\n" ++
      lines_text show_key table idxs

/-- The text of the dump format: the header line with `size_` and the
constant `N`, then the lines of the buckets `0` to `table_size - 1`. -/
def dump_text (N : Nat) (show_key : Key → String) (s : ADS_set Key) : String :=
  "curr_size = " ++ toString s.size_ ++ " table_size = " ++ toString N ++ "\n" ++
    lines_text show_key s.table (List.range s.table_size)

/-- The iterator after `n` applications of `operator++`; `none` when one of
them reads a null node. -/
def advance (table : List (List Key)) : Nat → Iterator Key → Option (Iterator Key)
  | 0, it => some it
  | n + 1, it =>
    match skipToNext table it with
    | none => none
    | some next => advance table n next

/-- The nodes of a chain, from its head on. -/
def nodes : List Key → List (List Key)
  | [] => []
  | k :: next => (k :: next) :: nodes next

/-- The iterators of the set `s` a caller can hold: those `begin()`, `end()`
and `find(k)` return, the one `insert(k)` returned when it produced `s`, and
those `operator++` makes of them. -/
inductive IterOf (N : Nat) (hasher : Key → Nat) (s : ADS_set Key) : Iterator Key → Prop
  | begin : IterOf N hasher s (begin s)
  | end_ : IterOf N hasher s (end_ s)
  | find (k : Key) : IterOf N hasher s (find hasher s k)
  | insert (s0 : ADS_set Key) (k : Key) :
      Reachable N hasher s0 → (insert N hasher s0 k).1 = s →
      IterOf N hasher s (insert N hasher s0 k).2.1
  | next {it it2 : Iterator Key} :
      IterOf N hasher s it → skipToNext s.table it = some it2 → IterOf N hasher s it2

/-! ## Single precision arithmetic -/

theorem bit_length_aux_le_iff :
    ∀ (fuel n k : Nat), n ≤ fuel → (bit_length_aux fuel n ≤ k ↔ n < 2 ^ k) := by
  intro fuel
  induction fuel with
  | zero =>
    intro n k hn
    have : n = 0 := by omega
    subst this
    simp [bit_length_aux]
  | succ f ih =>
    intro n k hn
    by_cases h0 : n = 0
    · subst h0; simp [bit_length_aux]
    · simp only [bit_length_aux, if_neg h0]
      cases k with
      | zero =>
        simp only [Nat.pow_zero]
        omega
      | succ k =>
        rw [Nat.add_le_add_iff_right, ih (n / 2) k (by omega), Nat.pow_succ]
        omega

theorem bit_length_le_iff (n k : Nat) : bit_length n ≤ k ↔ n < 2 ^ k :=
  bit_length_aux_le_iff n n k (le_refl n)

theorem lt_two_pow_bit_length (n : Nat) : n < 2 ^ bit_length n :=
  (bit_length_le_iff n _).mp (le_refl _)

theorem two_pow_le_of_lt_bit_length (n k : Nat) (h : k < bit_length n) : 2 ^ k ≤ n := by
  by_contra hlt
  have := (bit_length_le_iff n k).mpr (by omega)
  omega

theorem bit_length_mono {m n : Nat} (h : m ≤ n) : bit_length m ≤ bit_length n :=
  (bit_length_le_iff m _).mpr (lt_of_le_of_lt h (lt_two_pow_bit_length n))

/-- The defining property of rounding to nearest, ties to even: the result is
within one half of `a / b`, and it is even when `a / b` is half way. -/
theorem round_half_even_spec (a b : Nat) (hb : 0 < b) :
    2 * (round_half_even a b * b) ≤ 2 * a + b ∧
      2 * a ≤ 2 * (round_half_even a b * b) + b ∧
      (2 * a + b = 2 * (round_half_even a b * b) → round_half_even a b % 2 = 0) ∧
      (2 * a = 2 * (round_half_even a b * b) + b → round_half_even a b % 2 = 0) := by
  have hq : a / b * b + a % b = a := Nat.div_add_mod' a b
  have hr := Nat.mod_lt a hb
  unfold round_half_even
  generalize a / b = q at *
  generalize a % b = r at *
  have hq1 : (q + 1) * b = q * b + b := by rw [Nat.add_mul, Nat.one_mul]
  generalize hX : q * b = X at *
  split
  · rw [hX]; refine ⟨?_, ?_, ?_, ?_⟩ <;> omega
  · split
    · rw [hq1]; refine ⟨?_, ?_, ?_, ?_⟩ <;> omega
    · split
      · rw [hX]; refine ⟨?_, ?_, ?_, ?_⟩ <;> omega
      · rw [hq1]; refine ⟨?_, ?_, ?_, ?_⟩ <;> omega

theorem round_half_even_le_of (a b m : Nat) (hb : 0 < b) (h : 2 * a < 2 * (m * b) + b) :
    round_half_even a b ≤ m := by
  obtain ⟨h1, _, _, _⟩ := round_half_even_spec a b hb
  by_contra hlt
  have h2 : (m + 1) * b ≤ round_half_even a b * b := Nat.mul_le_mul_right b (by omega)
  rw [Nat.add_mul, Nat.one_mul] at h2
  omega

theorem round_half_even_ge_of (a b m : Nat) (hb : 0 < b) (h : 2 * (m * b) < 2 * a + b) :
    m ≤ round_half_even a b := by
  obtain ⟨_, h1, _, _⟩ := round_half_even_spec a b hb
  by_contra hlt
  have h2 : (round_half_even a b + 1) * b ≤ m * b := Nat.mul_le_mul_right b (by omega)
  rw [Nat.add_mul, Nat.one_mul] at h2
  omega

theorem round_half_even_exact (m b : Nat) (hb : 0 < b) : round_half_even (m * b) b = m :=
  le_antisymm (round_half_even_le_of _ _ _ hb (by omega))
    (round_half_even_ge_of _ _ _ hb (by omega))

/-- Rounding to nearest, ties to even, is monotone in the value `a / b`. -/
theorem round_half_even_mono (a b a2 b2 : Nat) (hb : 0 < b) (hb2 : 0 < b2)
    (h : a * b2 ≤ a2 * b) : round_half_even a b ≤ round_half_even a2 b2 := by
  obtain ⟨s1, _, s3, _⟩ := round_half_even_spec a b hb
  obtain ⟨_, t2, _, t4⟩ := round_half_even_spec a2 b2 hb2
  generalize round_half_even a b = M at *
  generalize round_half_even a2 b2 = M2 at *
  by_contra hlt
  have hX : 0 < b * b2 := Nat.mul_pos hb hb2
  have e1 : 2 * (M * (b * b2)) ≤ 2 * (a * b2) + b * b2 := by
    have := Nat.mul_le_mul_right b2 s1
    calc 2 * (M * (b * b2)) = 2 * (M * b) * b2 := by ring
      _ ≤ (2 * a + b) * b2 := this
      _ = 2 * (a * b2) + b * b2 := by ring
  have e2 : 2 * (a2 * b) ≤ 2 * (M2 * (b * b2)) + b * b2 := by
    have := Nat.mul_le_mul_right b t2
    calc 2 * (a2 * b) = 2 * a2 * b := by ring
      _ ≤ (2 * (M2 * b2) + b2) * b := this
      _ = 2 * (M2 * (b * b2)) + b * b2 := by ring
  have e3 : (M2 + 1) * (b * b2) ≤ M * (b * b2) := Nat.mul_le_mul_right _ (by omega)
  rw [Nat.add_mul, Nat.one_mul] at e3
  have e4 : 2 * (M * (b * b2)) = 2 * (a * b2) + b * b2 := by omega
  have e5 : 2 * (a2 * b) = 2 * (M2 * (b * b2)) + b * b2 := by omega
  have e6 : M * (b * b2) = (M2 + 1) * (b * b2) := by
    rw [Nat.add_mul, Nat.one_mul]; omega
  have hM : M = M2 + 1 := Nat.eq_of_mul_eq_mul_right hX e6
  have f1 : 2 * a + b = 2 * (M * b) := by
    apply Nat.eq_of_mul_eq_mul_right hb2
    calc (2 * a + b) * b2 = 2 * (a * b2) + b * b2 := by ring
      _ = 2 * (M * (b * b2)) := e4.symm
      _ = 2 * (M * b) * b2 := by ring
  have f2 : 2 * a2 = 2 * (M2 * b2) + b2 := by
    apply Nat.eq_of_mul_eq_mul_right hb
    calc 2 * a2 * b = 2 * (a2 * b) := by ring
      _ = 2 * (M2 * (b * b2)) + b * b2 := e5
      _ = (2 * (M2 * b2) + b2) * b := by ring
  have p1 := s3 f1
  have p2 := t4 f2
  omega

theorem div_le_div_of_cross (a b a2 b2 : Nat) (hb : 0 < b) (hb2 : 0 < b2)
    (h : a * b2 ≤ a2 * b) : a / b ≤ a2 / b2 := by
  rw [Nat.le_div_iff_mul_le hb2]
  apply Nat.le_of_mul_le_mul_right _ hb
  calc a / b * b2 * b = a / b * b * b2 := by ring
    _ ≤ a * b2 := Nat.mul_le_mul_right b2 (Nat.div_mul_le_self a b)
    _ ≤ a2 * b := h

/-- The value is below `2^24` units of the last digit kept. -/
theorem round_sig_bound_hi (a b : Nat) (hb : 0 < b) :
    a < 2 ^ 24 * (b * 2 ^ (bit_length (a / b) - 24)) := by
  have h1 := lt_two_pow_bit_length (a / b)
  have h2 : 2 ^ bit_length (a / b) ≤ 2 ^ (24 + (bit_length (a / b) - 24)) :=
    Nat.pow_le_pow_right (by omega) (by omega)
  have h3 : a < 2 ^ (24 + (bit_length (a / b) - 24)) * b :=
    (Nat.div_lt_iff_lt_mul hb).mp (lt_of_lt_of_le h1 h2)
  calc a < 2 ^ (24 + (bit_length (a / b) - 24)) * b := h3
    _ = 2 ^ 24 * (b * 2 ^ (bit_length (a / b) - 24)) := by rw [Nat.pow_add]; ring

/-- When digits are dropped, the value is at least `2^23` units of the last
digit kept. -/
theorem round_sig_bound_lo (a b : Nat) (hb : 0 < b) (hd : 24 < bit_length (a / b)) :
    2 ^ 23 * (b * 2 ^ (bit_length (a / b) - 24)) ≤ a := by
  have h1 := two_pow_le_of_lt_bit_length (a / b) (23 + (bit_length (a / b) - 24)) (by omega)
  have h2 := (Nat.le_div_iff_mul_le hb).mp h1
  calc 2 ^ 23 * (b * 2 ^ (bit_length (a / b) - 24))
      = 2 ^ (23 + (bit_length (a / b) - 24)) * b := by rw [Nat.pow_add]; ring
    _ ≤ a := h2

theorem mantissa_le (a b : Nat) (hb : 0 < b) :
    round_half_even a (b * 2 ^ (bit_length (a / b) - 24)) ≤ 2 ^ 24 := by
  have hpos : 0 < b * 2 ^ (bit_length (a / b) - 24) := Nat.mul_pos hb (Nat.two_pow_pos _)
  apply round_half_even_le_of _ _ _ hpos
  have := round_sig_bound_hi a b hb
  omega

theorem mantissa_ge (a b : Nat) (hb : 0 < b) (hd : 24 < bit_length (a / b)) :
    2 ^ 23 ≤ round_half_even a (b * 2 ^ (bit_length (a / b) - 24)) := by
  have hpos : 0 < b * 2 ^ (bit_length (a / b) - 24) := Nat.mul_pos hb (Nat.two_pow_pos _)
  apply round_half_even_ge_of _ _ _ hpos
  have := round_sig_bound_lo a b hb hd
  omega

/-- Rounding to 24 significant digits is monotone in the value `a / b`. -/
theorem round_sig_mono (a b a2 b2 : Nat) (hb : 0 < b) (hb2 : 0 < b2)
    (h : a * b2 ≤ a2 * b) : round_sig a b ≤ round_sig a2 b2 := by
  have hq := div_le_div_of_cross a b a2 b2 hb hb2 h
  have hL := bit_length_mono hq
  unfold round_sig
  have hm1 := mantissa_le a b hb
  generalize hd : bit_length (a / b) - 24 = d at *
  generalize hd2 : bit_length (a2 / b2) - 24 = d2 at *
  have hdd : d ≤ d2 := by omega
  rcases Nat.eq_or_lt_of_le hdd with he | hlt
  · subst he
    apply Nat.mul_le_mul_right
    apply round_half_even_mono _ _ _ _ (Nat.mul_pos hb (Nat.two_pow_pos _))
      (Nat.mul_pos hb2 (Nat.two_pow_pos _))
    calc a * (b2 * 2 ^ d) = a * b2 * 2 ^ d := by ring
      _ ≤ a2 * b * 2 ^ d := Nat.mul_le_mul_right _ h
      _ = a2 * (b * 2 ^ d) := by ring
  · have hm2 : 2 ^ 23 ≤ round_half_even a2 (b2 * 2 ^ d2) := by
      have := mantissa_ge a2 b2 hb2 (by omega)
      rw [hd2] at this
      exact this
    have hp : 2 ^ (d + 1) ≤ 2 ^ d2 := Nat.pow_le_pow_right (by omega) hlt
    calc round_half_even a (b * 2 ^ d) * 2 ^ d ≤ 2 ^ 24 * 2 ^ d := Nat.mul_le_mul_right _ hm1
      _ = 2 ^ 23 * 2 ^ (d + 1) := by rw [Nat.pow_succ]; ring
      _ ≤ 2 ^ 23 * 2 ^ d2 := Nat.mul_le_mul_left _ hp
      _ ≤ round_half_even a2 (b2 * 2 ^ d2) * 2 ^ d2 := Nat.mul_le_mul_right _ hm2

/-- A value with no digit below the 24th significant one is kept. -/
theorem round_sig_exact (q b : Nat) (hb : 0 < b) (hdiv : 2 ^ (bit_length q - 24) ∣ q) :
    round_sig (q * b) b = q := by
  unfold round_sig
  rw [Nat.mul_div_cancel q hb]
  generalize bit_length q - 24 = d at *
  obtain ⟨m, hm⟩ := hdiv
  subst hm
  have : 2 ^ d * m * b = m * (b * 2 ^ d) := by ring
  rw [this, round_half_even_exact m _ (Nat.mul_pos hb (Nat.two_pow_pos _))]
  ring

/-- The relative error of rounding is at most `2^-24`. -/
theorem round_sig_err (a b : Nat) (hb : 0 < b) (h : 2 ^ 23 * b ≤ a) :
    2 ^ 24 * (round_sig a b * b) ≤ (2 ^ 24 + 1) * a ∧
      (2 ^ 24 - 1) * a ≤ 2 ^ 24 * (round_sig a b * b) := by
  have hpos : 0 < b * 2 ^ (bit_length (a / b) - 24) := Nat.mul_pos hb (Nat.two_pow_pos _)
  obtain ⟨s1, s2, _, _⟩ := round_half_even_spec a _ hpos
  have hlo : 2 ^ 23 * (b * 2 ^ (bit_length (a / b) - 24)) ≤ a := by
    by_cases hd : 24 < bit_length (a / b)
    · exact round_sig_bound_lo a b hb hd
    · have : bit_length (a / b) - 24 = 0 := by omega
      rw [this, Nat.pow_zero, Nat.mul_one]; exact h
  have hR : round_sig a b * b =
      round_half_even a (b * 2 ^ (bit_length (a / b) - 24)) *
        (b * 2 ^ (bit_length (a / b) - 24)) := by
    unfold round_sig; ring
  rw [hR]
  generalize round_half_even a (b * 2 ^ (bit_length (a / b) - 24)) *
    (b * 2 ^ (bit_length (a / b) - 24)) = X at *
  generalize b * 2 ^ (bit_length (a / b) - 24) = E at *
  norm_num at *
  constructor <;> omega

/-- A value that is close enough below a value `Y` with no digit under the
last digit kept is rounded up to `Y` at least. -/
theorem round_sig_ge_of (a b Y : Nat) (hb : 0 < b)
    (hdiv : 2 ^ (bit_length (a / b) - 24) ∣ Y)
    (h : 2 * (Y * b) < 2 * a + b * 2 ^ (bit_length (a / b) - 24)) :
    Y ≤ round_sig a b := by
  have hpos : 0 < b * 2 ^ (bit_length (a / b) - 24) := Nat.mul_pos hb (Nat.two_pow_pos _)
  obtain ⟨m, hm⟩ := hdiv
  have h1 : m ≤ round_half_even a (b * 2 ^ (bit_length (a / b) - 24)) := by
    apply round_half_even_ge_of _ _ _ hpos
    have : m * (b * 2 ^ (bit_length (a / b) - 24)) = Y * b := by rw [hm]; ring
    rw [this]; exact h
  unfold round_sig
  calc Y = m * 2 ^ (bit_length (a / b) - 24) := by rw [hm]; ring
    _ ≤ _ := Nat.mul_le_mul_right _ h1

/-! ### The conversions and the two expressions of the code -/

theorem round_int_exact (n k : Nat) (h : n < 2 ^ 24) :
    round_sig (n * 2 ^ k) 1 = n * 2 ^ k := by
  have := round_sig_exact (n * 2 ^ k) 1 (by omega) (by
    have hlen : bit_length (n * 2 ^ k) ≤ 24 + k := by
      rw [bit_length_le_iff, Nat.pow_add]
      exact Nat.mul_lt_mul_of_pos_right h (Nat.two_pow_pos k)
    exact Dvd.dvd.mul_left (Nat.pow_dvd_pow 2 (by omega)) n)
  rwa [Nat.mul_one] at this

theorem to_float_exact (n : Nat) (h : n < 2 ^ 24) : to_float n = n := by
  have := round_int_exact n 0 h
  rwa [Nat.pow_zero, Nat.mul_one] at this

theorem to_float_mono {m n : Nat} (h : m ≤ n) : to_float m ≤ to_float n :=
  round_sig_mono m 1 n 1 (by omega) (by omega) (by omega)

theorem round_int_err (n : Nat) :
    2 ^ 24 * round_sig n 1 ≤ (2 ^ 24 + 1) * n ∧ (2 ^ 24 - 1) * n ≤ 2 ^ 24 * round_sig n 1 := by
  by_cases h : n < 2 ^ 24
  · have := round_int_exact n 0 h
    rw [Nat.pow_zero, Nat.mul_one] at this
    rw [this]
    constructor <;> omega
  · have := round_sig_err n 1 (by omega) (by omega)
    rwa [Nat.mul_one] at this

theorem mul_max_lf_mono {x y : Nat} (h : x ≤ y) : mul_max_lf x ≤ mul_max_lf y :=
  round_sig_mono _ 1 _ 1 (by omega) (by omega)
    (by rw [Nat.mul_one, Nat.mul_one]; exact Nat.mul_le_mul_right _ h)

theorem exceeds_load_eq_true (r t : Nat) :
    exceeds_load r t = true ↔ mul_max_lf (to_float t) < to_float r * 2 ^ 24 := by
  unfold exceeds_load; exact decide_eq_true_iff

theorem exceeds_load_eq_false (r t : Nat) :
    exceeds_load r t = false ↔ to_float r * 2 ^ 24 ≤ mul_max_lf (to_float t) := by
  unfold exceeds_load; rw [decide_eq_false_iff_not, Nat.not_lt]

/-- A larger table passes the load test if a smaller one does. -/
theorem exceeds_load_mono_table {r t t2 : Nat} (h : t ≤ t2)
    (hf : exceeds_load r t = false) : exceeds_load r t2 = false := by
  rw [exceeds_load_eq_false] at *
  exact le_trans hf (mul_max_lf_mono (to_float_mono h))

/-- A smaller size passes the load test if a larger one does. -/
theorem exceeds_load_mono_size {r r2 t : Nat} (h : r2 ≤ r)
    (hf : exceeds_load r t = false) : exceeds_load r2 t = false := by
  rw [exceeds_load_eq_false] at *
  exact le_trans (Nat.mul_le_mul_right _ (to_float_mono h)) hf

theorem exceeds_load_zero (t : Nat) : exceeds_load 0 t = false := by
  rw [exceeds_load_eq_false, to_float_exact 0 (by norm_num)]
  omega

/-- A table of at least twice the requested size passes the load test. -/
theorem exceeds_load_of_double {r m : Nat} (h : 2 * r ≤ m) : exceeds_load r m = false := by
  rw [exceeds_load_eq_false]
  obtain ⟨h1, _⟩ := round_int_err r
  obtain ⟨_, h2⟩ := round_int_err m
  obtain ⟨_, h3⟩ := round_int_err (to_float m * max_lf_num)
  unfold mul_max_lf to_float max_lf_num at *
  generalize round_sig (round_sig m 1 * 11744051) 1 = P at *
  generalize round_sig m 1 = Fm at *
  generalize round_sig r 1 = Fr at *
  norm_num at *
  omega

/-- Up to `2^20` buckets, a size that passes the load test is at most 7/10
of the table size. -/
theorem load_exact_of_float {r t : Nat} (ht : t ≤ 2 ^ 20)
    (hf : exceeds_load r t = false) : 10 * r ≤ 7 * t := by
  by_contra hlt
  rw [exceeds_load_eq_false] at hf
  have hu : 7 * t / 10 + 1 ≤ r := by omega
  have h1 : to_float (7 * t / 10 + 1) ≤ to_float r := to_float_mono hu
  rw [to_float_exact _ (by norm_num at *; omega)] at h1
  rw [to_float_exact t (by norm_num at *; omega)] at hf
  have h2 : mul_max_lf t ≤ round_sig ((16 * (7 * t / 10 + 1) - 1) * 2 ^ 20) 1 :=
    round_sig_mono _ 1 _ 1 (by omega) (by omega) (by
      unfold max_lf_num; norm_num at *; omega)
  rw [round_int_exact _ 20 (by norm_num at *; omega)] at h2
  norm_num at *
  omega

/-- Below `2^24` buckets, a size of at most 7/10 of the table size passes the
load test. -/
theorem float_of_load_exact {r t : Nat} (ht : t < 2 ^ 24)
    (he : 10 * r ≤ 7 * t) : exceeds_load r t = false := by
  rw [exceeds_load_eq_false, to_float_exact r (by omega), to_float_exact t ht]
  unfold mul_max_lf max_lf_num
  by_cases hle : r * 2 ^ 24 ≤ t * 11744051
  · have h1 : round_sig (r * 2 ^ 24) 1 ≤ round_sig (t * 11744051) 1 :=
      round_sig_mono _ 1 _ 1 (by omega) (by omega) (by omega)
    rwa [round_int_exact r 24 (by omega)] at h1
  · have hlen : bit_length (t * 11744051 / 1) ≤ 48 := by
      rw [bit_length_le_iff, Nat.div_one]
      norm_num at *; omega
    have hhi := round_sig_bound_hi (t * 11744051) 1 (by omega)
    apply round_sig_ge_of _ 1 _ (by omega)
    · exact Dvd.dvd.mul_left (Nat.pow_dvd_pow 2 (by omega)) r
    · by_cases hd : 24 < bit_length (t * 11744051 / 1)
      · have hlo := round_sig_bound_lo (t * 11744051) 1 (by omega) hd
        generalize 2 ^ (bit_length (t * 11744051 / 1) - 24) = D at *
        norm_num at *
        omega
      · have : bit_length (t * 11744051 / 1) - 24 = 0 := by omega
        rw [this] at hhi ⊢
        norm_num at *
        omega
/-! ## Facts on bucket arrays -/

theorem front_of_lt (t : List (List Key)) (i : Nat) (h : i < t.length) :
    front t i = t[i] := by
  simp [front, h]

theorem front_of_ge (t : List (List Key)) (i : Nat) (h : t.length ≤ i) :
    front t i = [] := by
  simp [front, List.getElem?_eq_none h]

theorem front_set (t : List (List Key)) (i j : Nat) (c : List Key) :
    front (t.set i c) j = if i = j ∧ i < t.length then c else front t j := by
  unfold front
  rw [List.getElem?_set]
  by_cases hij : i = j
  · subst hij
    by_cases hl : i < t.length
    · simp [hl]
    · simp [hl, List.getElem?_eq_none (Nat.le_of_not_lt hl)]
  · simp [hij]

theorem mem_flatten_iff_front (t : List (List Key)) (k : Key) :
    k ∈ t.flatten ↔ ∃ i, k ∈ front t i := by
  rw [List.mem_flatten]
  constructor
  · rintro ⟨l, hl, hk⟩
    obtain ⟨i, hi, rfl⟩ := List.getElem_of_mem hl
    exact ⟨i, by rw [front_of_lt t i hi]; exact hk⟩
  · rintro ⟨i, hk⟩
    by_cases hi : i < t.length
    · rw [front_of_lt t i hi] at hk
      exact ⟨t[i], List.getElem_mem hi, hk⟩
    · rw [front_of_ge t i (by omega)] at hk
      simp at hk

theorem map_front_range (t : List (List Key)) :
    (List.range t.length).map (front t) = t := by
  apply List.ext_getElem
  · simp
  · intro n h1 h2
    simp [front, h2]

/-- Splitting the keys of a table at bucket `i`. -/
theorem flatten_split (t : List (List Key)) (i : Nat) (h : i < t.length) :
    ∃ rest : List Key, t.flatten.Perm (front t i ++ rest) ∧
      ∀ c : List Key, (t.set i c).flatten.Perm (c ++ rest) := by
  refine ⟨(t.take i).flatten ++ (t.drop (i + 1)).flatten, ?_, ?_⟩
  · conv_lhs => rw [← List.take_append_drop i t, List.drop_eq_getElem_cons h]
    rw [front_of_lt t i h]
    simp only [List.flatten_append, List.flatten_cons]
    rw [← List.append_assoc, ← List.append_assoc]
    exact List.Perm.append_right _ List.perm_append_comm
  · intro c
    rw [List.set_eq_take_append_cons_drop, if_pos h]
    simp only [List.flatten_append, List.flatten_cons]
    rw [← List.append_assoc, ← List.append_assoc]
    exact List.Perm.append_right _ List.perm_append_comm


/-! ## Lookup -/

theorem find_loop_eq_nil (key : Key) (l : List Key) :
    find_loop key l = [] ↔ key ∉ l := by
  induction l with
  | nil => simp [find_loop]
  | cons k next ih =>
    by_cases h : k = key
    · simp [find_loop, h]
    · simp [find_loop, h, ih, Ne.symm h]

theorem find_loop_head (key : Key) (l : List Key) (h : key ∈ l) :
    ∃ next, find_loop key l = key :: next ∧ (key :: next) <:+ l := by
  induction l with
  | nil => simp at h
  | cons k next ih =>
    by_cases hk : k = key
    · exact ⟨next, by simp [find_loop, hk], by simp [hk]⟩
    · have hm : key ∈ next := by
        rcases List.mem_cons.mp h with h1 | h1
        · exact absurd h1.symm hk
        · exact h1
      obtain ⟨n, h1, h2⟩ := ih hm
      exact ⟨n, by simp [find_loop, hk, h1], List.IsSuffix.trans h2 (List.suffix_cons k next)⟩

theorem scan_at_end (cells : List (List Key)) (e : Nat) :
    scan cells e e = ⟨[], e, e⟩ := by
  cases cells <;> simp [scan]

theorem end_eq (s : ADS_set Key) :
    end_ s = ⟨[], s.table_size, s.table_size⟩ := by
  simp [end_, Iterator.init, skipToFirst, scan_at_end]

theorem find_eq_end (hasher : Key → Nat) (s : ADS_set Key) (key : Key) :
    find hasher s key = end_ s ↔ find_ hasher s key = [] := by
  unfold find
  by_cases h : find_ hasher s key = []
  · simp [h]
  · simp [h, end_eq]

theorem find_eq_end_iff_not_mem (hasher : Key → Nat) (s : ADS_set Key) (key : Key) :
    find hasher s key = end_ s ↔ key ∉ front s.table (hash_of hasher s key) := by
  rw [find_eq_end, find_, find_loop_eq_nil]

theorem count_eq (hasher : Key → Nat) (s : ADS_set Key) (key : Key) :
    count hasher s key = if key ∈ front s.table (hash_of hasher s key) then 1 else 0 := by
  unfold count
  by_cases h : key ∈ front s.table (hash_of hasher s key)
  · rw [if_neg (by rw [find_eq_end_iff_not_mem]; exact not_not.mpr h), if_pos h]
  · rw [if_pos (by rw [find_eq_end_iff_not_mem]; exact h), if_neg h]

theorem count_eq_one (hasher : Key → Nat) (s : ADS_set Key) (key : Key) :
    count hasher s key = 1 ↔ key ∈ front s.table (hash_of hasher s key) := by
  rw [count_eq]; split <;> simp [*]

theorem count_eq_zero (hasher : Key → Nat) (s : ADS_set Key) (key : Key) :
    count hasher s key = 0 ↔ key ∉ front s.table (hash_of hasher s key) := by
  rw [count_eq]; split <;> simp [*]

/-! ## The representation invariant -/

theorem WF.mem_iff {hasher : Key → Nat} {s : ADS_set Key} (h : WF hasher s) (k : Key) :
    k ∈ s.table.flatten ↔ k ∈ front s.table (hash_of hasher s k) := by
  rw [mem_flatten_iff_front]
  constructor
  · rintro ⟨i, hi⟩
    have := h.bucket i k hi
    unfold hash_of
    rw [this]; exact hi
  · intro hk; exact ⟨_, hk⟩

theorem WF.count_one_iff {hasher : Key → Nat} {s : ADS_set Key} (h : WF hasher s) (k : Key) :
    count hasher s k = 1 ↔ k ∈ s.table.flatten := by
  rw [count_eq_one, h.mem_iff]

theorem WF.count_zero_iff {hasher : Key → Nat} {s : ADS_set Key} (h : WF hasher s) (k : Key) :
    count hasher s k = 0 ↔ k ∉ s.table.flatten := by
  rw [count_eq_zero, h.mem_iff]

theorem WF.count_val {hasher : Key → Nat} {s : ADS_set Key} (h : WF hasher s) (k : Key) :
    count hasher s k = if k ∈ s.table.flatten then 1 else 0 := by
  by_cases hk : k ∈ s.table.flatten
  · rw [if_pos hk]; exact (h.count_one_iff k).mpr hk
  · rw [if_neg hk]; exact (h.count_zero_iff k).mpr hk

theorem WF.hash_lt {hasher : Key → Nat} {s : ADS_set Key} (h : WF hasher s) (k : Key) :
    hash_of hasher s k < s.table.length := by
  rw [h.len]; exact Nat.mod_lt _ h.pos

/-! ## insert_ -/

theorem insert__fst (hasher : Key → Nat) (s : ADS_set Key) (key : Key) :
    (insert_ hasher s key).1 =
      { table := s.table.set (hash_of hasher s key)
          (key :: front s.table (hash_of hasher s key)),
        size_ := s.size_ + 1, table_size := s.table_size } := by
  unfold insert_
  by_cases h : front s.table (hash_of hasher s key) = []
  · simp [h]
  · simp [h]

theorem insert__snd (hasher : Key → Nat) (s : ADS_set Key) (key : Key) :
    (insert_ hasher s key).2 = key :: front s.table (hash_of hasher s key) := by
  unfold insert_
  by_cases h : front s.table (hash_of hasher s key) = []
  · simp [h]
  · simp [h]

theorem insert__table_size (hasher : Key → Nat) (s : ADS_set Key) (key : Key) :
    (insert_ hasher s key).1.table_size = s.table_size := by
  rw [insert__fst]

theorem insert__perm {hasher : Key → Nat} {s : ADS_set Key} (h : WF hasher s) (key : Key) :
    (insert_ hasher s key).1.table.flatten.Perm (key :: s.table.flatten) := by
  rw [insert__fst]
  obtain ⟨rest, h1, h2⟩ := flatten_split s.table _ (h.hash_lt key)
  exact (h2 _).trans (List.Perm.cons key h1.symm)

theorem insert__wf {hasher : Key → Nat} {s : ADS_set Key} (h : WF hasher s) (key : Key)
    (hk : key ∉ s.table.flatten) : WF hasher (insert_ hasher s key).1 := by
  have hp := insert__perm h key
  rw [insert__fst] at hp ⊢
  refine ⟨by simp [h.len], h.pos, ?_, ?_, ?_⟩
  · intro i k hik
    simp only [front_set] at hik
    split at hik
    · rename_i hc
      rcases List.mem_cons.mp hik with h1 | h1
      · rw [h1, ← hc.1]; rfl
      · rw [← hc.1]; exact h.bucket _ _ h1
    · exact h.bucket i k hik
  · exact hp.nodup_iff.mpr (List.nodup_cons.mpr ⟨hk, h.nodup⟩)
  · simp only [hp.length_eq, List.length_cons, h.size]

/-! ## insert_all, rehash, reserve -/

theorem insert_all_nil (hasher : Key → Nat) (s : ADS_set Key) :
    insert_all hasher s [] = s := rfl

theorem insert_all_cons (hasher : Key → Nat) (s : ADS_set Key) (k : Key) (ks : List Key) :
    insert_all hasher s (k :: ks) = insert_all hasher (insert_ hasher s k).1 ks := rfl

theorem insert_all_append (hasher : Key → Nat) (s : ADS_set Key) (ks ks2 : List Key) :
    insert_all hasher s (ks ++ ks2) = insert_all hasher (insert_all hasher s ks) ks2 := by
  simp [insert_all, List.foldl_append]

theorem insert_all_table_size (hasher : Key → Nat) (s : ADS_set Key) (ks : List Key) :
    (insert_all hasher s ks).table_size = s.table_size := by
  induction ks generalizing s with
  | nil => rfl
  | cons k ks ih => rw [insert_all_cons, ih, insert__table_size]

theorem insert_all_size (hasher : Key → Nat) (s : ADS_set Key) (ks : List Key) :
    (insert_all hasher s ks).size_ = s.size_ + ks.length := by
  induction ks generalizing s with
  | nil => rfl
  | cons k ks ih =>
    rw [insert_all_cons, ih, insert__fst]
    simp only [List.length_cons]; omega

/-- Inserting new, pairwise distinct keys keeps the invariant and adds exactly
these keys. -/
theorem insert_all_wf {hasher : Key → Nat} (ks : List Key) :
    ∀ {s : ADS_set Key}, WF hasher s → ks.Nodup → (∀ k ∈ ks, k ∉ s.table.flatten) →
      WF hasher (insert_all hasher s ks) ∧
      (insert_all hasher s ks).table.flatten.Perm (ks.reverse ++ s.table.flatten) := by
  induction ks with
  | nil => intro s h _ _; exact ⟨h, by simp [insert_all_nil]⟩
  | cons k ks ih =>
    intro s h hnd hnew
    rw [insert_all_cons]
    have hk : k ∉ s.table.flatten := hnew k (List.mem_cons_self k ks)
    have h1 := insert__wf h k hk
    have hp := insert__perm h k
    have hnd2 := List.nodup_cons.mp hnd
    have hnew2 : ∀ x ∈ ks, x ∉ (insert_ hasher s k).1.table.flatten := by
      intro x hx hmem
      rcases List.mem_cons.mp (hp.subset hmem) with h2 | h2
      · exact hnd2.1 (h2 ▸ hx)
      · exact hnew x (List.mem_cons_of_mem k hx) h2
    obtain ⟨h3, h4⟩ := ih h1 hnd2.2 hnew2
    refine ⟨h3, h4.trans ?_⟩
    rw [List.reverse_cons, List.append_assoc]
    exact List.Perm.append_left _ (by simpa using hp)

theorem flatten_replicate_nil (n : Nat) :
    (List.replicate n ([] : List Key)).flatten = [] := by
  induction n with
  | zero => rfl
  | succ n ih => simp [List.replicate_succ, ih]

theorem front_replicate_nil (n i : Nat) :
    front (List.replicate n ([] : List Key)) i = [] := by
  unfold front
  by_cases h : i < n
  · simp [h]
  · simp [List.getElem?_eq_none, Nat.le_of_not_lt h]

theorem blank_wf (hasher : Key → Nat) (n : Nat) (h : 0 < n) :
    WF hasher (blank n : ADS_set Key) := by
  refine ⟨by simp [blank], h, ?_, ?_, ?_⟩
  · intro i k hk
    simp [blank, front_replicate_nil] at hk
  · simp [blank, flatten_replicate_nil]
  · simp [blank, flatten_replicate_nil]

theorem foldl_insert_all_range (hasher : Key → Nat) (t : List (List Key)) (s0 : ADS_set Key)
    (l : List Nat) :
    l.foldl (fun a idx => insert_all hasher a (front t idx)) s0 =
      insert_all hasher s0 (l.map (front t)).flatten := by
  induction l generalizing s0 with
  | nil => rfl
  | cons i l ih =>
    simp only [List.foldl_cons, List.map_cons, List.flatten_cons, insert_all_append]
    exact ih _

theorem rehash_table_size (N : Nat) (hasher : Key → Nat) (s : ADS_set Key) (r : Nat) :
    (rehash N hasher s r).table_size = max N (max r (size_over_max_lf s.size_)) := by
  simp only [rehash, foldl_insert_all_range, insert_all_table_size]

/-- With the array as long as `table_size`, `rehash` inserts the keys of the
old table, bucket by bucket and head first, into the blank table. -/
theorem rehash_eq (N : Nat) (hasher : Key → Nat) (s : ADS_set Key) (r : Nat)
    (hlen : s.table.length = s.table_size) :
    rehash N hasher s r =
      insert_all hasher (blank (max N (max r (size_over_max_lf s.size_)))) s.table.flatten := by
  simp only [rehash, foldl_insert_all_range]
  rw [← hlen, map_front_range]
  rfl

theorem rehash_fresh (N : Nat) (hasher : Key → Nat) (r : Nat) :
    rehash N hasher (fresh : ADS_set Key) r = blank (max N r) := by
  rw [rehash_eq _ _ _ _ rfl]
  have h0 : size_over_max_lf 0 = 0 := by decide
  simp [fresh, insert_all_nil, h0]

/-- The state after `rehash`: the invariant holds, the keys are those of
before, `size_` is restored. -/
theorem rehash_wf {N : Nat} {hasher : Key → Nat} {s : ADS_set Key} (hN : 0 < N)
    (h : WF hasher s) (r : Nat) :
    WF hasher (rehash N hasher s r) ∧
      (rehash N hasher s r).table.flatten.Perm s.table.flatten.reverse ∧
      (rehash N hasher s r).size_ = s.size_ := by
  rw [rehash_eq N hasher s r h.len]
  have hb : WF hasher (blank (max N (max r (size_over_max_lf s.size_))) : ADS_set Key) :=
    blank_wf hasher _ (lt_of_lt_of_le hN (le_max_left _ _))
  obtain ⟨h1, h2⟩ := insert_all_wf s.table.flatten hb h.nodup
    (by intro k _; simp [blank, flatten_replicate_nil])
  refine ⟨h1, ?_, ?_⟩
  · simpa [blank, flatten_replicate_nil] using h2
  · rw [insert_all_size, h.size]; simp [blank]

/-! ### The growth loop -/

theorem grow_loop_ge (r : Nat) (fuel n : Nat) : 2 * n + 1 ≤ grow_loop r fuel n := by
  induction fuel generalizing n with
  | zero => simp [grow_loop]; omega
  | succ f ih =>
    simp only [grow_loop]
    split
    · have := ih (n * 2 + 1); omega
    · omega

/-- With enough rounds the loop does not depend on their number. -/
theorem grow_loop_fuel (r : Nat) (f1 f2 n : Nat) (h1 : 2 * r ≤ 2 * n + 1 + f1)
    (h2 : 2 * r ≤ 2 * n + 1 + f2) : grow_loop r f1 n = grow_loop r f2 n := by
  induction f1 generalizing f2 n with
  | zero =>
    cases f2 with
    | zero => rfl
    | succ f2 =>
      simp only [grow_loop]
      rw [exceeds_load_of_double (by omega)]
      rfl
  | succ f1 ih =>
    cases f2 with
    | zero =>
      simp only [grow_loop]
      rw [exceeds_load_of_double (by omega)]
      rfl
    | succ f2 =>
      simp only [grow_loop]
      split
      · exact ih f2 (n * 2 + 1) (by omega) (by omega)
      · rfl

/-- The loop equation of the `do ... while` loop of `reserve`. -/
theorem grow_unfold (r n : Nat) :
    grow r n =
      if exceeds_load r (n * 2 + 1) then grow r (n * 2 + 1) else n * 2 + 1 := by
  unfold grow
  cases hr : 2 * r with
  | zero =>
    have h0 : r = 0 := by omega
    subst h0
    rw [exceeds_load_zero]; rfl
  | succ f =>
    simp only [grow_loop]
    split
    · exact grow_loop_fuel r f (f + 1) _ (by omega) (by omega)
    · rfl

theorem grow_loop_ok (r : Nat) (fuel n : Nat) (h : 2 * r ≤ 2 * n + 1 + fuel) :
    exceeds_load r (grow_loop r fuel n) = false := by
  induction fuel generalizing n with
  | zero => simp only [grow_loop]; exact exceeds_load_of_double (by omega)
  | succ f ih =>
    simp only [grow_loop]
    split
    · exact ih (n * 2 + 1) (by omega)
    · rename_i hc
      exact Bool.eq_false_iff.mpr hc

/-- The capacity the loop of `reserve` ends with passes the load test for
`requested_size`. -/
theorem grow_ok (r n : Nat) : exceeds_load r (grow r n) = false :=
  grow_loop_ok r _ n (by omega)

theorem grow_gt (r n : Nat) : n < grow r n := by
  have := grow_loop_ge r (2 * r) n
  unfold grow; omega

theorem reserve_cases (N : Nat) (hasher : Key → Nat) (s : ADS_set Key) (r : Nat) :
    (exceeds_load r s.table_size = false ∧ reserve N hasher s r = s) ∨
    (exceeds_load r s.table_size = true ∧
      reserve N hasher s r = rehash N hasher s (grow r s.table_size)) := by
  unfold reserve
  cases h : exceeds_load r s.table_size
  · left; exact ⟨rfl, by simp⟩
  · right; exact ⟨rfl, by simp⟩

/-- The state after `reserve`: the invariant holds, the keys and `size_` are
those of before, and the capacity passes the load test for
`requested_size`. -/
theorem reserve_wf {N : Nat} {hasher : Key → Nat} {s : ADS_set Key} (hN : 0 < N)
    (h : WF hasher s) (r : Nat) :
    WF hasher (reserve N hasher s r) ∧
      (∀ k, k ∈ (reserve N hasher s r).table.flatten ↔ k ∈ s.table.flatten) ∧
      (reserve N hasher s r).size_ = s.size_ ∧
      exceeds_load r (reserve N hasher s r).table_size = false ∧
      s.table_size ≤ (reserve N hasher s r).table_size := by
  rcases reserve_cases N hasher s r with ⟨h1, h2⟩ | ⟨h1, h2⟩
  · rw [h2]; exact ⟨h, fun _ => Iff.rfl, rfl, h1, le_refl _⟩
  · rw [h2]
    obtain ⟨h3, h4, h5⟩ := rehash_wf hN h (grow r s.table_size)
    have hle : grow r s.table_size ≤
        max N (max (grow r s.table_size) (size_over_max_lf s.size_)) :=
      le_trans (le_max_left _ _) (le_max_right _ _)
    refine ⟨h3, ?_, h5, ?_, ?_⟩
    · intro k; rw [h4.mem_iff, List.mem_reverse]
    · rw [rehash_table_size]
      exact exceeds_load_mono_table hle (grow_ok r s.table_size)
    · rw [rehash_table_size]
      have := grow_gt r s.table_size
      omega

/-! ## insert -/

theorem insert_of_mem (N : Nat) (hasher : Key → Nat) (s : ADS_set Key) (key : Key)
    (h : key ∈ front s.table (hash_of hasher s key)) :
    insert N hasher s key = (s, find hasher s key, false) := by
  unfold insert
  have : find hasher s key ≠ end_ s := by
    rw [Ne, find_eq_end_iff_not_mem]; exact not_not.mpr h
  simp [this]

theorem insert_of_not_mem (N : Nat) (hasher : Key → Nat) (s : ADS_set Key) (key : Key)
    (h : key ∉ front s.table (hash_of hasher s key)) :
    insert N hasher s key =
      ((insert_ hasher (reserve N hasher s (s.size_ + 1)) key).1,
       ⟨(insert_ hasher (reserve N hasher s (s.size_ + 1)) key).2,
        hash_of hasher (insert_ hasher (reserve N hasher s (s.size_ + 1)) key).1 key,
        (insert_ hasher (reserve N hasher s (s.size_ + 1)) key).1.table_size⟩, true) := by
  unfold insert
  have : find hasher s key = end_ s := by
    rw [find_eq_end_iff_not_mem]; exact h
  simp [this]

/-- The step shared by `insert(key)` for an absent key and by
`insert(range)`: `reserve(size_ + 1)` followed by `insert_(key)`. -/
theorem reserve_insert__wf {N : Nat} {hasher : Key → Nat} {s : ADS_set Key} (hN : 0 < N)
    (h : WF hasher s) (key : Key) (hk : key ∉ s.table.flatten) :
    WF hasher (insert_ hasher (reserve N hasher s (s.size_ + 1)) key).1 ∧
      (∀ k, k ∈ (insert_ hasher (reserve N hasher s (s.size_ + 1)) key).1.table.flatten ↔
        k = key ∨ k ∈ s.table.flatten) ∧
      (insert_ hasher (reserve N hasher s (s.size_ + 1)) key).1.size_ = s.size_ + 1 ∧
      exceeds_load (s.size_ + 1)
        (insert_ hasher (reserve N hasher s (s.size_ + 1)) key).1.table_size = false ∧
      s.table_size ≤ (insert_ hasher (reserve N hasher s (s.size_ + 1)) key).1.table_size := by
  obtain ⟨h1, h2, h3, h4, h5⟩ := reserve_wf hN h (s.size_ + 1)
  have hk2 : key ∉ (reserve N hasher s (s.size_ + 1)).table.flatten := by
    rw [h2]; exact hk
  refine ⟨insert__wf h1 key hk2, ?_, ?_, ?_, ?_⟩
  · intro k
    rw [(insert__perm h1 key).mem_iff, List.mem_cons, h2]
  · rw [insert__fst]; simp only [h3]
  · rw [insert__table_size]; exact h4
  · rw [insert__table_size]; exact h5

theorem insert_range_nil (N : Nat) (hasher : Key → Nat) (s : ADS_set Key) :
    insert_range N hasher s [] = s := rfl

theorem insert_range_cons (N : Nat) (hasher : Key → Nat) (s : ADS_set Key) (key : Key)
    (rest : List Key) :
    insert_range N hasher s (key :: rest) =
      if count hasher s key = 0 then
        insert_range N hasher
          (insert_ hasher (reserve N hasher s (s.size_ + 1)) key).1 rest
      else insert_range N hasher s rest := rfl

/-! ## erase -/

theorem erase_loop_of_not_mem (key : Key) (l : List Key) (h : key ∉ l) :
    erase_loop key l = (l, []) := by
  induction l with
  | nil => rfl
  | cons k next ih =>
    have hk : k ≠ key := fun e => h (e ▸ List.mem_cons_self k next)
    have hn : key ∉ next := fun e => h (List.mem_cons_of_mem k e)
    simp [erase_loop, hk, ih hn]

theorem erase_loop_of_mem (key : Key) (l : List Key) (h : key ∈ l) :
    ∃ p next, l = p ++ key :: next ∧ key ∉ p ∧ erase_loop key l = (p, key :: next) := by
  induction l with
  | nil => simp at h
  | cons k nx ih =>
    by_cases hk : k = key
    · exact ⟨[], nx, by simp [hk], by simp, by simp [erase_loop, hk]⟩
    · have hm : key ∈ nx := by
        rcases List.mem_cons.mp h with h1 | h1
        · exact absurd h1.symm hk
        · exact h1
      obtain ⟨p, next, h1, h2, h3⟩ := ih hm
      refine ⟨k :: p, next, by simp [h1], ?_, by simp [erase_loop, hk, h3]⟩
      simp [h2, Ne.symm hk]

theorem erase_of_not_mem (hasher : Key → Nat) (s : ADS_set Key) (key : Key)
    (h : key ∉ front s.table (hash_of hasher s key)) :
    erase hasher s key = (s, 0) := by
  unfold erase
  simp [erase_loop_of_not_mem key _ h]

theorem erase_of_mem (hasher : Key → Nat) (s : ADS_set Key) (key : Key)
    (h : key ∈ front s.table (hash_of hasher s key)) :
    ∃ p next, front s.table (hash_of hasher s key) = p ++ key :: next ∧ key ∉ p ∧
      erase hasher s key =
        ({ table := s.table.set (hash_of hasher s key) (p ++ next),
           size_ := s.size_ - 1, table_size := s.table_size }, 1) := by
  obtain ⟨p, next, h1, h2, h3⟩ := erase_loop_of_mem key _ h
  refine ⟨p, next, h1, h2, ?_⟩
  unfold erase
  simp only [h3]
  by_cases hp : p = []
  · simp [hp]
  · simp [hp]

/-- The state after `erase` of a stored key. -/
theorem erase_wf {hasher : Key → Nat} {s : ADS_set Key} (h : WF hasher s) (key : Key)
    (hk : key ∈ s.table.flatten) :
    WF hasher (erase hasher s key).1 ∧ (erase hasher s key).2 = 1 ∧
      s.table.flatten.Perm (key :: (erase hasher s key).1.table.flatten) ∧
      (erase hasher s key).1.size_ + 1 = s.size_ ∧
      (erase hasher s key).1.table_size = s.table_size := by
  have hm := (h.mem_iff key).mp hk
  obtain ⟨p, next, h1, h2, h3⟩ := erase_of_mem hasher s key hm
  obtain ⟨rest, h4, h5⟩ := flatten_split s.table _ (h.hash_lt key)
  rw [h3]
  have hperm : s.table.flatten.Perm
      (key :: (s.table.set (hash_of hasher s key) (p ++ next)).flatten) := by
    refine h4.trans (List.Perm.trans ?_ (List.Perm.cons key (h5 (p ++ next)).symm))
    rw [h1, List.append_assoc, List.append_assoc]
    exact List.perm_middle
  have hnd := hperm.nodup_iff.mp h.nodup
  refine ⟨⟨by simp [h.len], h.pos, ?_, (List.nodup_cons.mp hnd).2, ?_⟩, rfl, hperm, ?_, rfl⟩
  · intro i k hik
    simp only [front_set] at hik
    split at hik
    · rename_i hc
      apply h.bucket
      rw [← hc.1, h1]
      rcases List.mem_append.mp hik with h6 | h6
      · exact List.mem_append_left _ h6
      · exact List.mem_append_right _ (List.mem_cons_of_mem _ h6)
    · exact h.bucket i k hik
  · have := hperm.length_eq
    simp only [List.length_cons] at this
    simp only [h.size]; omega
  · have := hperm.length_eq
    simp only [List.length_cons] at this
    simp only [h.size]; omega

/-! ## clear -/

theorem clear_loop_getElem? (t : List (List Key)) (n j : Nat) :
    ((List.range n).foldl (fun t idx => t.set idx []) t)[j]? =
      if j < n ∧ j < t.length then some [] else t[j]? := by
  induction n with
  | zero => simp
  | succ n ih =>
    rw [List.range_succ, List.foldl_append]
    simp only [List.foldl_cons, List.foldl_nil, List.getElem?_set, ih]
    have hlen : ∀ m, ((List.range m).foldl (fun t idx => t.set idx []) t).length = t.length := by
      intro m
      induction m with
      | zero => simp
      | succ m ihm => rw [List.range_succ, List.foldl_append]; simpa using ihm
    rw [hlen]
    by_cases h1 : n = j
    · subst h1
      by_cases h2 : n < t.length
      · simp [h2]
      · simp [h2, List.getElem?_eq_none (Nat.le_of_not_lt h2)]
    · by_cases h2 : j < t.length
      · by_cases h3 : j < n
        · simp [h1, h2, h3, Nat.lt_succ_of_lt h3]
        · have : ¬ j < n + 1 := by omega
          simp [h1, h3, this]
      · simp [h1, h2]

theorem clear_chain_short (chain : List Key) (h : chain.length ≤ 1) :
    clear_chain chain [] = ClearOutcome.done [] := by
  match chain, h with
  | [], _ => rfl
  | [k], _ => simp [clear_chain]

theorem clear_chain_long (chain : List Key) (h : 2 ≤ chain.length) :
    ∃ deleted, clear_chain chain [] = ClearOutcome.use_after_free deleted := by
  match chain, h with
  | k :: k2 :: rest, _ => exact ⟨[k2 :: rest], by simp [clear_chain]⟩

/-- The loop of `clear` over buckets has a result exactly when none of them
holds two or more nodes; every chain head is then `nullptr`. -/
theorem clear_buckets_eq (idxs : List Nat) :
    ∀ t : List (List Key), clear_buckets idxs t =
      if ∀ i ∈ idxs, (front t i).length ≤ 1 then
        some (idxs.foldl (fun t idx => t.set idx []) t)
      else none := by
  induction idxs with
  | nil => intro t; simp [clear_buckets]
  | cons idx idxs ih =>
    intro t
    by_cases hs : (front t idx).length ≤ 1
    · have hiff : (∀ i ∈ idxs, (front (t.set idx []) i).length ≤ 1) ↔
          (∀ i ∈ idx :: idxs, (front t i).length ≤ 1) := by
        constructor
        · intro h i hi
          rcases List.mem_cons.mp hi with he | hm
          · rw [he]; exact hs
          · have := h i hm
            rw [front_set] at this
            split at this
            · rename_i hc; rw [← hc.1]; exact hs
            · exact this
        · intro h i hi
          rw [front_set]
          split
          · simp
          · exact h i (List.mem_cons_of_mem _ hi)
      simp only [clear_buckets, clear_chain_short _ hs, ih, List.foldl_cons]
      by_cases hc : ∀ i ∈ idx :: idxs, (front t i).length ≤ 1
      · rw [if_pos hc, if_pos (hiff.mpr hc)]
      · rw [if_neg hc, if_neg (fun hh => hc (hiff.mp hh))]
    · obtain ⟨deleted, hd⟩ := clear_chain_long (front t idx) (by omega)
      simp only [clear_buckets, hd]
      rw [if_neg (fun hh => hs (hh idx (List.mem_cons_self _ _)))]

theorem clear_table_eq (t : List (List Key)) :
    (List.range t.length).foldl (fun t idx => t.set idx []) t =
      List.replicate t.length [] := by
  apply List.ext_getElem?
  intro j
  rw [clear_loop_getElem?]
  by_cases h : j < t.length
  · simp [h]
  · simp [h, List.getElem?_eq_none, Nat.le_of_not_lt h]

/-- On a set none of whose chains has two or more nodes, `clear` leaves the
blank table of the same capacity. -/
theorem clear_of_short (s : ADS_set Key) (hlen : s.table.length = s.table_size)
    (h : ∀ i, (front s.table i).length ≤ 1) : clear s = some (blank s.table_size) := by
  unfold clear
  rw [clear_buckets_eq, if_pos (fun i _ => h i), ← hlen, clear_table_eq]
  rfl

/-- On a set with a chain of two or more nodes, `clear` has no result. -/
theorem clear_of_long (s : ADS_set Key) (hlen : s.table.length = s.table_size)
    (h : ∃ i, 2 ≤ (front s.table i).length) : clear s = none := by
  obtain ⟨i, hi⟩ := h
  have hlt : i < s.table_size := by
    by_contra hge
    rw [front_of_ge s.table i (by omega)] at hi
    simp at hi
  unfold clear
  rw [clear_buckets_eq, if_neg]
  intro hh
  have := hh i (List.mem_range.mpr hlt)
  omega

theorem clear_some (s c : ADS_set Key) (hlen : s.table.length = s.table_size)
    (h : clear s = some c) :
    c = blank s.table_size ∧ ∀ i, (front s.table i).length ≤ 1 := by
  by_cases hs : ∀ i, (front s.table i).length ≤ 1
  · rw [clear_of_short s hlen hs] at h
    exact ⟨(Option.some.inj h).symm, hs⟩
  · have : ∃ i, 2 ≤ (front s.table i).length := by
      by_contra hne
      apply hs
      intro i
      by_contra hi
      exact hne ⟨i, by omega⟩
    rw [clear_of_long s hlen this] at h
    exact absurd h (by simp)

/-! ## Iterators -/

theorem scan_spec (t : List (List Key)) :
    ∀ (cells : List (List Key)) (p : Nat), cells = t.drop p → p ≤ t.length →
      Iterator.Valid t (scan cells p t.length) ∧
      remaining t (scan cells p t.length) = cells.flatten := by
  intro cells
  induction cells with
  | nil =>
    intro p hc hp
    have hpl : p = t.length := by
      have := congrArg List.length hc
      simp at this; omega
    subst hpl
    simp [scan, Iterator.Valid, remaining, List.drop_of_length_le]
  | cons chain cells ih =>
    intro p hc hp
    have hpl : p < t.length := by
      have := congrArg List.length hc
      simp at this; omega
    have hd : t.drop p = t[p] :: t.drop (p + 1) := List.drop_eq_getElem_cons hpl
    rw [hd] at hc
    have hchain : chain = t[p] := (List.cons.inj hc).1
    have hcells : cells = t.drop (p + 1) := (List.cons.inj hc).2
    simp only [scan]
    rw [if_neg (by omega)]
    by_cases hne : chain = []
    · rw [if_neg (by simpa using hne)]
      obtain ⟨h1, h2⟩ := ih (p + 1) hcells (by omega)
      exact ⟨h1, by simp [h2, hne]⟩
    · rw [if_pos hne]
      refine ⟨⟨rfl, Or.inr ⟨hpl, hne, ?_⟩⟩, ?_⟩
      · simp [front_of_lt t p hpl, hchain]
      · simp [remaining, hcells]

theorem begin_spec (s : ADS_set Key) (hlen : s.table.length = s.table_size) :
    Iterator.Valid s.table (begin s) ∧ remaining s.table (begin s) = s.table.flatten := by
  have := scan_spec s.table (s.table.drop 0) 0 rfl (Nat.zero_le _)
  simpa [begin, Iterator.init, skipToFirst, hlen] using this

theorem valid_ne_end_iff {s : ADS_set Key} {it : Iterator Key}
    (hlen : s.table.length = s.table_size) (h : Iterator.Valid s.table it) :
    it ≠ end_ s ↔ it.listPos ≠ [] := by
  rw [end_eq]
  obtain ⟨h1, h2 | h2⟩ := h
  · constructor
    · intro hne hl
      apply hne
      cases it
      simp_all
    · intro hne; exact absurd h2.2 hne
  · constructor
    · intro _; exact h2.2.1
    · intro _ he
      rw [he] at h2
      exact h2.2.1 rfl

/-- One round of a traversal: on a valid iterator that is not the end,
`operator*` and `operator++` read no null node, the iterator stays valid and
has passed exactly the key it pointed at. -/
theorem step_spec (t : List (List Key)) (it : Iterator Key) (h : Iterator.Valid t it)
    (hne : it.listPos ≠ []) :
    ∃ key next, deref it = some key ∧ skipToNext t it = some next ∧
      Iterator.Valid t next ∧ remaining t it = key :: remaining t next := by
  obtain ⟨h1, h2 | h2⟩ := h
  · exact absurd h2.2 hne
  · obtain ⟨hp, _, hsuf⟩ := h2
    cases hl : it.listPos with
    | nil => exact absurd hl hne
    | cons key nx =>
      have hpe : it.tablePos ≠ it.end_ := by omega
      have hpe2 : it.tablePos ≠ t.length := by omega
      by_cases hnx : nx = []
      · subst hnx
        obtain ⟨h3, h4⟩ := scan_spec t (t.drop (it.tablePos + 1)) (it.tablePos + 1) rfl (by omega)
        refine ⟨key, _, by simp [deref, hl], ?_, h3, ?_⟩
        · simp [skipToNext, hpe2, hl, h1]
        · rw [h4]; simp [remaining, hl]
      · refine ⟨key, { it with listPos := nx }, by simp [deref, hl], ?_, ?_, ?_⟩
        · simp [skipToNext, hpe, hl, hnx]
        · refine ⟨h1, Or.inr ⟨hp, hnx, ?_⟩⟩
          rw [hl] at hsuf
          exact List.IsSuffix.trans (List.suffix_cons key nx) hsuf
        · simp [remaining, hl]

theorem remaining_of_nil (t : List (List Key)) (it : Iterator Key) (h : Iterator.Valid t it)
    (hnil : it.listPos = []) : remaining t it = [] := by
  obtain ⟨_, h2 | h2⟩ := h
  · simp [remaining, h2.1, h2.2, List.drop_of_length_le]
  · exact absurd hnil h2.2.1

/-- A traversal from a valid iterator reads the remaining keys in order. -/
theorem iterate_spec (s : ADS_set Key) (hlen : s.table.length = s.table_size) :
    ∀ (fuel : Nat) (it : Iterator Key), Iterator.Valid s.table it →
      (remaining s.table it).length ≤ fuel →
      iterate s fuel it = some (remaining s.table it) := by
  intro fuel
  induction fuel with
  | zero =>
    intro it hv hf
    have hnil : it.listPos = [] := by
      have : remaining s.table it = [] := List.length_eq_zero.mp (Nat.le_zero.mp hf)
      unfold remaining at this
      exact (List.append_eq_nil.mp this).1
    have : ¬ it ≠ end_ s := by rw [valid_ne_end_iff hlen hv]; exact not_not.mpr hnil
    simp only [iterate]
    rw [if_neg this, remaining_of_nil _ _ hv hnil]
  | succ fuel ih =>
    intro it hv hf
    by_cases hnil : it.listPos = []
    · have : ¬ it ≠ end_ s := by rw [valid_ne_end_iff hlen hv]; exact not_not.mpr hnil
      simp only [iterate]
      rw [if_neg this, remaining_of_nil _ _ hv hnil]
    · have hne : it ≠ end_ s := (valid_ne_end_iff hlen hv).mpr hnil
      obtain ⟨key, next, h1, h2, h3, h4⟩ := step_spec s.table it hv hnil
      simp only [iterate]
      rw [if_pos hne, h1, h2]
      simp only []
      rw [h4] at hf ⊢
      rw [ih next h3 (by simpa using hf)]
      rfl

/-- The loop of the copy constructor inserts the remaining keys in order; it
needs one round for each of them. -/
theorem copy_loop_spec (hasher : Key → Nat) (other : ADS_set Key)
    (hlen : other.table.length = other.table_size) :
    ∀ (fuel : Nat) (it : Iterator Key) (s : ADS_set Key), Iterator.Valid other.table it →
      copy_loop hasher other fuel it s =
        if (remaining other.table it).length ≤ fuel then
          some (insert_all hasher s (remaining other.table it))
        else none := by
  intro fuel
  induction fuel with
  | zero =>
    intro it s hv
    by_cases hnil : it.listPos = []
    · have : ¬ it ≠ end_ other := by rw [valid_ne_end_iff hlen hv]; exact not_not.mpr hnil
      simp only [copy_loop]
      rw [if_neg this, remaining_of_nil _ _ hv hnil]; rfl
    · have hne : it ≠ end_ other := (valid_ne_end_iff hlen hv).mpr hnil
      obtain ⟨key, next, _, _, _, h4⟩ := step_spec other.table it hv hnil
      simp only [copy_loop]
      rw [if_pos hne, h4, if_neg (by simp)]
  | succ fuel ih =>
    intro it s hv
    by_cases hnil : it.listPos = []
    · have : ¬ it ≠ end_ other := by rw [valid_ne_end_iff hlen hv]; exact not_not.mpr hnil
      simp only [copy_loop]
      rw [if_neg this, remaining_of_nil _ _ hv hnil]; rfl
    · have hne : it ≠ end_ other := (valid_ne_end_iff hlen hv).mpr hnil
      obtain ⟨key, next, h1, h2, h3, h4⟩ := step_spec other.table it hv hnil
      simp only [copy_loop]
      rw [if_pos hne, h1, h2]
      simp only []
      rw [h4, ih next _ h3]
      simp only [List.length_cons, Nat.add_le_add_iff_right, insert_all_cons]

/-- The loop of `operator==` answers whether `lhs` holds all remaining keys. -/
theorem eq_loop_spec (hasher : Key → Nat) (lhs rhs : ADS_set Key)
    (hlen : rhs.table.length = rhs.table_size) :
    ∀ (fuel : Nat) (it : Iterator Key), Iterator.Valid rhs.table it →
      (remaining rhs.table it).length ≤ fuel →
      eq_loop hasher lhs rhs fuel it =
        some ((remaining rhs.table it).all (fun k => decide (¬ count hasher lhs k < 1))) := by
  intro fuel
  induction fuel with
  | zero =>
    intro it hv hf
    have hnil : it.listPos = [] := by
      have : remaining rhs.table it = [] := List.length_eq_zero.mp (Nat.le_zero.mp hf)
      unfold remaining at this
      exact (List.append_eq_nil.mp this).1
    have : ¬ it ≠ end_ rhs := by rw [valid_ne_end_iff hlen hv]; exact not_not.mpr hnil
    simp only [eq_loop]
    rw [if_neg this, remaining_of_nil _ _ hv hnil]; rfl
  | succ fuel ih =>
    intro it hv hf
    by_cases hnil : it.listPos = []
    · have : ¬ it ≠ end_ rhs := by rw [valid_ne_end_iff hlen hv]; exact not_not.mpr hnil
      simp only [eq_loop]
      rw [if_neg this, remaining_of_nil _ _ hv hnil]; rfl
    · have hne : it ≠ end_ rhs := (valid_ne_end_iff hlen hv).mpr hnil
      obtain ⟨key, next, h1, h2, h3, h4⟩ := step_spec rhs.table it hv hnil
      simp only [eq_loop]
      rw [if_pos hne, h1]
      simp only []
      rw [h4] at hf ⊢
      by_cases hc : count hasher lhs key < 1
      · rw [if_pos hc, List.all_cons]
        simp only [hc, not_true_eq_false, decide_False, Bool.false_and]
      · rw [if_neg hc, h2]
        simp only []
        rw [ih next h3 (by simpa using hf), List.all_cons]
        simp only [hc, not_false_eq_true, decide_True, Bool.true_and]

/-! ## Copy construction -/

/-- The copy constructor returns, with a round for each key of `other`, and
then builds `copy_of other`. -/
theorem copy_ctor_eq (N : Nat) (hasher : Key → Nat) (fuel : Nat) (other : ADS_set Key)
    (hlen : other.table.length = other.table_size) (hN : N ≤ other.table_size) :
    copy_ctor N hasher fuel other =
      if other.table.flatten.length ≤ fuel then some (copy_of hasher other) else none := by
  obtain ⟨h1, h2⟩ := begin_spec other hlen
  unfold copy_ctor
  simp only [rehash_fresh, max_eq_right hN, copy_loop_spec hasher other hlen fuel _ _ h1, h2]
  by_cases hf : other.table.flatten.length ≤ fuel
  · simp only [if_pos hf]; rfl
  · simp only [if_neg hf]

theorem copy_of_wf {hasher : Key → Nat} {other : ADS_set Key} (h : WF hasher other) :
    WF hasher (copy_of hasher other) ∧
      (copy_of hasher other).table.flatten.Perm other.table.flatten ∧
      (copy_of hasher other).size_ = other.size_ ∧
      (copy_of hasher other).table_size = other.table_size := by
  obtain ⟨h1, h2⟩ := insert_all_wf other.table.flatten (blank_wf hasher _ h.pos) h.nodup
    (by intro k _; simp [blank, flatten_replicate_nil])
  have hp : (copy_of hasher other).table.flatten.Perm other.table.flatten := by
    have : (copy_of hasher other).table.flatten.Perm other.table.flatten.reverse := by
      simpa [copy_of, blank, flatten_replicate_nil] using h2
    exact this.trans (List.reverse_perm _)
  have hts : (copy_of hasher other).table_size = other.table_size := by
    simp [copy_of, insert_all_table_size, blank]
  refine ⟨⟨?_, ?_, ?_, ?_, ?_⟩, hp, rfl, hts⟩
  · rw [hts]; have := h1.len; rw [insert_all_table_size] at this; exact this
  · rw [hts]; exact h.pos
  · intro i k hk
    have := h1.bucket i k hk
    rw [insert_all_table_size] at this
    rw [hts]; exact this
  · exact hp.nodup_iff.mpr h.nodup
  · rw [hp.length_eq]; exact h.size

/-! ## Every reachable set satisfies the invariant -/

theorem ctor_eq (N : Nat) (hasher : Key → Nat) :
    (ctor N hasher : ADS_set Key) = blank N := by
  simp [ctor, rehash_fresh]

theorem blank_inv {N : Nat} (hasher : Key → Nat) (hN : 0 < N) :
    Inv N hasher (blank N : ADS_set Key) :=
  ⟨blank_wf hasher N hN, le_refl _, exceeds_load_zero _⟩

theorem reserve_insert__inv {N : Nat} {hasher : Key → Nat} {s : ADS_set Key} (hN : 0 < N)
    (h : Inv N hasher s) (key : Key) (hk : key ∉ s.table.flatten) :
    Inv N hasher (insert_ hasher (reserve N hasher s (s.size_ + 1)) key).1 := by
  obtain ⟨h1, _, h3, h4, h5⟩ := reserve_insert__wf hN h.wf key hk
  exact ⟨h1, le_trans h.ge h5, by rw [h3]; exact h4⟩

theorem insert_inv {N : Nat} {hasher : Key → Nat} {s : ADS_set Key} (hN : 0 < N)
    (h : Inv N hasher s) (key : Key) : Inv N hasher (insert N hasher s key).1 := by
  by_cases hk : key ∈ front s.table (hash_of hasher s key)
  · rw [insert_of_mem N hasher s key hk]; exact h
  · rw [insert_of_not_mem N hasher s key hk]
    exact reserve_insert__inv hN h key (by rw [h.wf.mem_iff]; exact hk)

theorem insert_range_inv {N : Nat} {hasher : Key → Nat} (hN : 0 < N) (keys : List Key) :
    ∀ {s : ADS_set Key}, Inv N hasher s → Inv N hasher (insert_range N hasher s keys) := by
  induction keys with
  | nil => intro s h; exact h
  | cons key rest ih =>
    intro s h
    rw [insert_range_cons]
    split
    · rename_i hc
      exact ih (reserve_insert__inv hN h key ((h.wf.count_zero_iff key).mp hc))
    · exact ih h

theorem erase_inv {N : Nat} {hasher : Key → Nat} {s : ADS_set Key}
    (h : Inv N hasher s) (key : Key) : Inv N hasher (erase hasher s key).1 := by
  by_cases hk : key ∈ front s.table (hash_of hasher s key)
  · obtain ⟨h1, _, _, h4, h5⟩ := erase_wf h.wf key ((h.wf.mem_iff key).mpr hk)
    refine ⟨h1, by rw [h5]; exact h.ge, ?_⟩
    rw [h5]; exact exceeds_load_mono_size (by omega) h.load
  · rw [erase_of_not_mem hasher s key hk]; exact h

theorem clear_inv {N : Nat} {hasher : Key → Nat} {s c : ADS_set Key}
    (h : Inv N hasher s) (hc : clear s = some c) : Inv N hasher c := by
  rw [(clear_some s c h.wf.len hc).1]
  exact ⟨blank_wf hasher _ h.wf.pos, h.ge, exceeds_load_zero _⟩

/-- When the copy assignment has a result, it is the copy of `other`, and the
destructor of the temporary has run on the old state. -/
theorem assign_some {N : Nat} {hasher : Key → Nat} {fuel : Nat} {s other c : ADS_set Key}
    (h : assign N hasher fuel s other = some c) :
    copy_ctor N hasher fuel other = some c ∧ dtor s = some () := by
  unfold assign at h
  split at h
  · exact absurd h (by simp)
  · rename_i tmp htmp
    split at h
    · exact absurd h (by simp)
    · rename_i u hu
      simp only [swap, Option.some.injEq] at h hu
      rw [← h]
      exact ⟨htmp, hu⟩

/-- When the assignment from a list has a result, it is the set built from
the list, and the destructor of the temporary has run on the old state. -/
theorem assign_ilist_some {N : Nat} {hasher : Key → Nat} {s c : ADS_set Key}
    {ilist : List Key} (h : assign_ilist N hasher s ilist = some c) :
    c = ctor_range N hasher ilist ∧ dtor s = some () := by
  unfold assign_ilist at h
  split at h
  · exact absurd h (by simp)
  · rename_i u hu
    simp only [swap, Option.some.injEq] at h hu
    exact ⟨h.symm, hu⟩

theorem copy_of_inv {N : Nat} {hasher : Key → Nat} {s : ADS_set Key}
    (h : Inv N hasher s) : Inv N hasher (copy_of hasher s) := by
  obtain ⟨h1, _, h3, h4⟩ := copy_of_wf h.wf
  exact ⟨h1, by rw [h4]; exact h.ge, by rw [h3, h4]; exact h.load⟩

theorem copy_ctor_some {N : Nat} {hasher : Key → Nat} {fuel : Nat} {s c : ADS_set Key}
    (h : Inv N hasher s) (hc : copy_ctor N hasher fuel s = some c) :
    c = copy_of hasher s := by
  rw [copy_ctor_eq N hasher fuel s h.wf.len h.ge] at hc
  split at hc
  · exact (Option.some.inj hc).symm
  · exact absurd hc (by simp)

/-- Every reachable set satisfies the invariant. -/
theorem reachable_inv {N : Nat} {hasher : Key → Nat} (hN : 0 < N) {s : ADS_set Key}
    (h : Reachable N hasher s) : Inv N hasher s := by
  induction h with
  | ctor => rw [ctor_eq]; exact blank_inv hasher hN
  | ctor_range keys =>
    unfold ctor_range
    rw [rehash_fresh, max_self]
    exact insert_range_inv hN keys (blank_inv hasher hN)
  | copy_ctor fuel _ hc ih =>
    rw [copy_ctor_some ih hc]; exact copy_of_inv ih
  | assign fuel _ _ hc _ ih2 =>
    rw [copy_ctor_some ih2 (assign_some hc).1]; exact copy_of_inv ih2
  | assign_ilist ilist _ hc _ =>
    rw [(assign_ilist_some hc).1]
    unfold ctor_range
    rw [rehash_fresh, max_self]
    exact insert_range_inv hN ilist (blank_inv hasher hN)
  | insert key _ ih => exact insert_inv hN ih key
  | insert_range keys _ ih => exact insert_range_inv hN keys ih
  | erase key _ ih => exact erase_inv ih key
  | clear _ hc ih => exact clear_inv ih hc
  | swap_fst _ _ _ ih2 => exact ih2
  | swap_snd _ _ ih1 _ => exact ih1

/-- The copy constructor returns on every reachable set, given a round for
each of its keys. -/
theorem copy_ctor_returns {N : Nat} {hasher : Key → Nat} (hN : 0 < N) {s : ADS_set Key}
    (h : Reachable N hasher s) (fuel : Nat) (hf : s.size_ ≤ fuel) :
    copy_ctor N hasher fuel s = some (copy_of hasher s) := by
  have hi := reachable_inv hN h
  rw [copy_ctor_eq N hasher fuel s hi.wf.len hi.ge, if_pos (by rw [← hi.wf.size]; exact hf)]

/-! ## Traversals of a whole set -/

/-- A traversal from `begin()` to `end()` returns within `size_` rounds and
reads the keys of the chains, bucket by bucket. -/
theorem iterate_begin {hasher : Key → Nat} {s : ADS_set Key} (h : WF hasher s)
    (fuel : Nat) (hf : s.size_ ≤ fuel) :
    iterate s fuel (begin s) = some s.table.flatten := by
  obtain ⟨h1, h2⟩ := begin_spec s h.len
  rw [iterate_spec s h.len fuel _ h1 (by rw [h2, ← h.size]; exact hf), h2]

theorem insert_range_append (N : Nat) (hasher : Key → Nat) (keys keys2 : List Key) :
    ∀ s : ADS_set Key, insert_range N hasher s (keys ++ keys2) =
      insert_range N hasher (insert_range N hasher s keys) keys2 := by
  induction keys with
  | nil => intro s; rfl
  | cons k ks ih =>
    intro s
    simp only [List.cons_append, insert_range_cons]
    split
    · exact ih _
    · exact ih _

/-- Two sets with the invariant give every key the same `count` exactly when
they store the same keys. -/
theorem same_count_iff {hasher : Key → Nat} {a b : ADS_set Key} (ha : WF hasher a)
    (hb : WF hasher b) :
    (∀ k, count hasher a k = count hasher b k) ↔
      ∀ k, k ∈ a.table.flatten ↔ k ∈ b.table.flatten := by
  constructor
  · intro h k
    rw [← ha.count_one_iff, ← hb.count_one_iff, h k]
  · intro h k
    rw [ha.count_val, hb.count_val]
    by_cases hk : k ∈ a.table.flatten
    · rw [if_pos hk, if_pos ((h k).mp hk)]
    · rw [if_neg hk, if_neg (fun hk2 => hk ((h k).mpr hk2))]

/-- The value `operator==` returns, given a round for each key of `rhs`. -/
theorem op_eq_spec {hasher : Key → Nat} {a b : ADS_set Key} (ha : WF hasher a)
    (hb : WF hasher b) (fuel : Nat) (hf : b.size_ ≤ fuel) :
    op_eq hasher fuel a b =
      some (decide (a.size_ = b.size_ ∧ ∀ k ∈ b.table.flatten, k ∈ a.table.flatten)) := by
  unfold op_eq
  by_cases hs : a.size_ = b.size_
  · obtain ⟨h1, h2⟩ := begin_spec b hb.len
    rw [if_neg (by simpa using hs),
      eq_loop_spec hasher a b hb.len fuel _ h1 (by rw [h2, ← hb.size]; exact hf), h2]
    congr 1
    rw [Bool.eq_iff_iff]
    simp only [List.all_eq_true, decide_eq_true_eq, hs, true_and]
    constructor
    · intro h k hk
      have := h k hk
      rw [← ha.count_one_iff, count_eq] at *
      split <;> simp_all
    · intro h k hk
      have := (ha.count_one_iff k).mpr (h k hk)
      omega
  · rw [if_pos hs]
    simp [hs]

/-- For sets with the invariant, equal sizes and one inclusion amount to
equal key sets. -/
theorem size_and_subset_iff {hasher : Key → Nat} {a b : ADS_set Key} (ha : WF hasher a)
    (hb : WF hasher b) :
    (a.size_ = b.size_ ∧ ∀ k ∈ b.table.flatten, k ∈ a.table.flatten) ↔
      ∀ k, count hasher a k = count hasher b k := by
  rw [same_count_iff ha hb]
  constructor
  · rintro ⟨hs, hsub⟩
    have hp : b.table.flatten.Perm a.table.flatten :=
      (List.subperm_of_subset hb.nodup hsub).perm_of_length_le
        (by rw [← ha.size, ← hb.size, hs])
    intro k; exact hp.mem_iff.symm
  · intro h
    refine ⟨?_, fun k hk => (h k).mpr hk⟩
    have hp : a.table.flatten.Perm b.table.flatten :=
      (List.perm_ext_iff_of_nodup ha.nodup hb.nodup).mpr h
    rw [ha.size, hb.size, hp.length_eq]

/-! ## The contract -/

theorem scenarioA_reachable : Reachable 7 id scenarioA :=
  Reachable.insert 3 (Reachable.insert 2 (Reachable.insert 1 Reachable.ctor))

theorem scenarioB_reachable : Reachable 7 id scenarioB :=
  Reachable.insert 5 (Reachable.insert 4 scenarioA_reachable)

/-- C1: in every reachable set (`N ≥ 1`, any hash function), after
`insert(k)` the key is counted once; and if `k` was absent before, `insert`
reports `inserted == true` and `size()` has grown by exactly one. -/
theorem C1_insert_then_count (N : Nat) (hasher : Key → Nat) (hN : 0 < N)
    (s : ADS_set Key) (h : Reachable N hasher s) (k : Key) :
    count hasher (insert N hasher s k).1 k = 1 ∧
      (count hasher s k = 0 →
        (insert N hasher s k).2.2 = true ∧
        size (insert N hasher s k).1 = size s + 1) := by
  have hi := reachable_inv hN h
  by_cases hk : k ∈ front s.table (hash_of hasher s k)
  · rw [insert_of_mem N hasher s k hk]
    refine ⟨(count_eq_one hasher s k).mpr hk, fun h0 => ?_⟩
    exact absurd hk ((count_eq_zero hasher s k).mp h0)
  · rw [insert_of_not_mem N hasher s k hk]
    have hk2 : k ∉ s.table.flatten := by rw [hi.wf.mem_iff]; exact hk
    obtain ⟨h1, h2, h3, _, _⟩ := reserve_insert__wf hN hi.wf k hk2
    exact ⟨(h1.count_one_iff k).mpr ((h2 k).mpr (Or.inl rfl)), fun _ => ⟨rfl, h3⟩⟩

/-- C1 at the default set of `ADS_set<unsigned, 7>` and the key 3. -/
theorem C1_insert_then_count_witness :
    count id (ctor 7 id : ADS_set Nat) 3 = 0 ∧
      count id (insert 7 id (ctor 7 id : ADS_set Nat) 3).1 3 = 1 ∧
      (insert 7 id (ctor 7 id : ADS_set Nat) 3).2.2 = true ∧
      size (insert 7 id (ctor 7 id : ADS_set Nat) 3).1 = size (ctor 7 id : ADS_set Nat) + 1 :=
  ⟨by decide,
   (C1_insert_then_count 7 id (by decide) (ctor 7 id) Reachable.ctor 3).1,
   (C1_insert_then_count 7 id (by decide) (ctor 7 id) Reachable.ctor 3).2 (by decide)⟩

/-- C2: `insert(k)` of a key that is already in the set (`count(k) == 1`)
reports `inserted == false` and leaves the whole state as it was (`size_`,
`table_size` and every chain, so no rehash), and the returned iterator
dereferences to `k`.  This holds in every state, the reachable ones
included. -/
theorem C2_insert_existing (N : Nat) (hasher : Key → Nat) (s : ADS_set Key) (k : Key)
    (hk : count hasher s k = 1) :
    (insert N hasher s k).2.2 = false ∧ (insert N hasher s k).1 = s ∧
      deref (insert N hasher s k).2.1 = some k := by
  have hm := (count_eq_one hasher s k).mp hk
  rw [insert_of_mem N hasher s k hm]
  refine ⟨rfl, rfl, ?_⟩
  obtain ⟨next, h1, _⟩ := find_loop_head k _ hm
  have hf : find_ hasher s k = k :: next := h1
  simp [find, hf, deref]

/-- C2 at scenario A (keys 1, 2, 3) and the key 2. -/
theorem C2_insert_existing_witness :
    count id scenarioA 2 = 1 ∧ (insert 7 id scenarioA 2).2.2 = false ∧
      (insert 7 id scenarioA 2).1 = scenarioA ∧
      deref (insert 7 id scenarioA 2).2.1 = some 2 :=
  ⟨by decide, C2_insert_existing 7 id scenarioA 2 (by decide)⟩

/-- C3: in every reachable set, `erase(k)` of a stored key returns 1;
afterwards `find(k) == end()` and `count(k) == 0`, `size()` has dropped by
exactly one, `table_size` is unchanged and every other key is counted as
before. -/
theorem C3_erase_present (N : Nat) (hasher : Key → Nat) (hN : 0 < N)
    (s : ADS_set Key) (h : Reachable N hasher s) (k : Key) (hk : count hasher s k = 1) :
    (erase hasher s k).2 = 1 ∧
      find hasher (erase hasher s k).1 k = end_ (erase hasher s k).1 ∧
      count hasher (erase hasher s k).1 k = 0 ∧
      size (erase hasher s k).1 + 1 = size s ∧
      (erase hasher s k).1.table_size = s.table_size ∧
      ∀ k2, k2 ≠ k → count hasher (erase hasher s k).1 k2 = count hasher s k2 := by
  have hi := reachable_inv hN h
  have hm := (hi.wf.count_one_iff k).mp hk
  obtain ⟨h1, h2, h3, h4, h5⟩ := erase_wf hi.wf k hm
  have hnd := List.nodup_cons.mp (h3.nodup_iff.mp hi.wf.nodup)
  have h0 : count hasher (erase hasher s k).1 k = 0 := (h1.count_zero_iff k).mpr hnd.1
  refine ⟨h2, ?_, h0, h4, h5, ?_⟩
  · rw [find_eq_end_iff_not_mem, ← count_eq_zero]; exact h0
  · intro k2 hne
    have hiff : k2 ∈ (erase hasher s k).1.table.flatten ↔ k2 ∈ s.table.flatten := by
      rw [h3.mem_iff, List.mem_cons]
      exact ⟨Or.inr, fun hh => hh.resolve_left hne⟩
    rw [h1.count_val, hi.wf.count_val]
    by_cases hk2 : k2 ∈ s.table.flatten
    · rw [if_pos hk2, if_pos (hiff.mpr hk2)]
    · rw [if_neg hk2, if_neg (fun hh => hk2 (hiff.mp hh))]

/-- C3 at scenario A: default set, insert 1, 2, 3, then `erase(2)` returns
1, `size() == 2` and `find(2) == end()`. -/
theorem C3_erase_present_witness :
    (erase id scenarioA 2).2 = 1 ∧ size (erase id scenarioA 2).1 = 2 ∧
      find id (erase id scenarioA 2).1 2 = end_ (erase id scenarioA 2).1 :=
  have h := C3_erase_present 7 id (by decide) scenarioA scenarioA_reachable 2 (by decide)
  ⟨h.1, by decide, h.2.1⟩

/-- C4: `erase(k)` of a key that is not in the set (`count(k) == 0`) returns 0
and leaves the whole state as it was (`size_`, `table_size` and every chain).
This holds in every state, the reachable ones included. -/
theorem C4_erase_absent (hasher : Key → Nat) (s : ADS_set Key) (k : Key)
    (hk : count hasher s k = 0) :
    (erase hasher s k).2 = 0 ∧ (erase hasher s k).1 = s := by
  rw [erase_of_not_mem hasher s k ((count_eq_zero hasher s k).mp hk)]
  exact ⟨rfl, rfl⟩

/-- C4 at scenario A (keys 1, 2, 3) and the key 9. -/
theorem C4_erase_absent_witness :
    count id scenarioA 9 = 0 ∧ (erase id scenarioA 9).2 = 0 ∧
      (erase id scenarioA 9).1 = scenarioA :=
  ⟨by decide, C4_erase_absent id scenarioA 9 (by decide)⟩

/-- C5: in every reachable set (whatever constructor and whatever sequence
of `insert(key)`, `insert(range)`, `erase`, `clear`, copy construction,
assignment and `swap` built it) the keys of the nodes of all chains are
pairwise distinct, and the traversal from `begin()` to `end()` returns and
never yields a key twice. -/
theorem C5_keys_distinct (N : Nat) (hasher : Key → Nat) (hN : 0 < N)
    (s : ADS_set Key) (h : Reachable N hasher s) :
    s.table.flatten.Nodup ∧
      ∃ keys, iterate s (size s) (begin s) = some keys ∧ keys.Nodup := by
  have hi := reachable_inv hN h
  exact ⟨hi.wf.nodup, _, iterate_begin hi.wf _ (le_refl _), hi.wf.nodup⟩

/-- C5 at scenario B (keys 1 to 5, after a growth). -/
theorem C5_keys_distinct_witness :
    scenarioB.table.flatten.Nodup ∧
      ∃ keys, iterate scenarioB (size scenarioB) (begin scenarioB) = some keys ∧
        keys.Nodup :=
  C5_keys_distinct 7 id (by decide) scenarioB scenarioB_reachable

/-- C6: in every reachable set `size()` is the number of nodes of all
chains, and the traversal from `begin()` to `end()` returns and yields that
many keys; the same holds after `rehash` and `reserve` with any argument. -/
theorem C6_size_counts_nodes (N : Nat) (hasher : Key → Nat) (hN : 0 < N)
    (s : ADS_set Key) (h : Reachable N hasher s) :
    size s = (s.table.map List.length).sum ∧
      (∃ keys, iterate s (size s) (begin s) = some keys ∧ keys.length = size s) ∧
      (∀ r, size (rehash N hasher s r) =
        ((rehash N hasher s r).table.map List.length).sum) ∧
      (∀ r, size (reserve N hasher s r) =
        ((reserve N hasher s r).table.map List.length).sum) := by
  have hi := reachable_inv hN h
  refine ⟨?_, ⟨_, iterate_begin hi.wf _ (le_refl _), hi.wf.size.symm⟩, ?_, ?_⟩
  · rw [← List.length_flatten]; exact hi.wf.size
  · intro r
    rw [← List.length_flatten]; exact (rehash_wf hN hi.wf r).1.size
  · intro r
    rw [← List.length_flatten]; exact (reserve_wf hN hi.wf r).1.size

/-- C6 at scenario B (keys 1 to 5, after a growth). -/
theorem C6_size_counts_nodes_witness :
    size scenarioB = (scenarioB.table.map List.length).sum ∧
      (∃ keys, iterate scenarioB (size scenarioB) (begin scenarioB) = some keys ∧
        keys.length = size scenarioB) ∧
      (∀ r, size (rehash 7 id scenarioB r) =
        ((rehash 7 id scenarioB r).table.map List.length).sum) ∧
      (∀ r, size (reserve 7 id scenarioB r) =
        ((reserve 7 id scenarioB r).table.map List.length).sum) :=
  C6_size_counts_nodes 7 id (by decide) scenarioB scenarioB_reachable

/-- C7: in every reachable set each key in the chain of bucket `i` has
`hash(key) mod table_size == i` for the current `table_size`; hence a key is
stored in some chain exactly when `count(key) == 1`, and every key the
traversal from `begin()` to `end()` yields has `count(key) == 1`. -/
theorem C7_bucket_of_hash (N : Nat) (hasher : Key → Nat) (hN : 0 < N)
    (s : ADS_set Key) (h : Reachable N hasher s) :
    (∀ i k, k ∈ front s.table i → hasher k % s.table_size = i) ∧
      (∀ k, (∃ chain ∈ s.table, k ∈ chain) ↔ count hasher s k = 1) ∧
      ∃ keys, iterate s (size s) (begin s) = some keys ∧
        ∀ k ∈ keys, count hasher s k = 1 := by
  have hi := reachable_inv hN h
  refine ⟨hi.wf.bucket, ?_, _, iterate_begin hi.wf _ (le_refl _), ?_⟩
  · intro k
    rw [hi.wf.count_one_iff, List.mem_flatten]
  · intro k hk
    exact (hi.wf.count_one_iff k).mpr hk

/-- C7 at scenario B (keys 1 to 5, after a growth to 15 buckets). -/
theorem C7_bucket_of_hash_witness :
    (∀ i k, k ∈ front scenarioB.table i → id k % scenarioB.table_size = i) ∧
      (∀ k, (∃ chain ∈ scenarioB.table, k ∈ chain) ↔ count id scenarioB k = 1) ∧
      ∃ keys, iterate scenarioB (size scenarioB) (begin scenarioB) = some keys ∧
        ∀ k ∈ keys, count id scenarioB k = 1 :=
  C7_bucket_of_hash 7 id (by decide) scenarioB scenarioB_reachable

/-- C8: on every reachable set, `rehash` with any requested table size and
`reserve` with any requested size keep `count(k)` of every key and keep
`size()`; and every key found before an `insert` (growing or not) is found
after it. -/
theorem C8_rehash_keeps_keys (N : Nat) (hasher : Key → Nat) (hN : 0 < N)
    (s : ADS_set Key) (h : Reachable N hasher s) :
    (∀ r, (∀ k, count hasher (rehash N hasher s r) k = count hasher s k) ∧
        size (rehash N hasher s r) = size s) ∧
      (∀ r, (∀ k, count hasher (reserve N hasher s r) k = count hasher s k) ∧
        size (reserve N hasher s r) = size s) ∧
      (∀ k k2, count hasher s k2 = 1 → count hasher (insert N hasher s k).1 k2 = 1) := by
  have hi := reachable_inv hN h
  refine ⟨?_, ?_, ?_⟩
  · intro r
    obtain ⟨h1, h2, h3⟩ := rehash_wf hN hi.wf r
    refine ⟨(same_count_iff h1 hi.wf).mpr ?_, h3⟩
    intro k; rw [h2.mem_iff, List.mem_reverse]
  · intro r
    obtain ⟨h1, h2, h3, _, _⟩ := reserve_wf hN hi.wf r
    exact ⟨(same_count_iff h1 hi.wf).mpr h2, h3⟩
  · intro k k2 hk2
    by_cases hk : k ∈ front s.table (hash_of hasher s k)
    · rw [insert_of_mem N hasher s k hk]; exact hk2
    · rw [insert_of_not_mem N hasher s k hk]
      have hkf : k ∉ s.table.flatten := by rw [hi.wf.mem_iff]; exact hk
      obtain ⟨h1, h2, _, _, _⟩ := reserve_insert__wf hN hi.wf k hkf
      exact (h1.count_one_iff k2).mpr ((h2 k2).mpr (Or.inr ((hi.wf.count_one_iff k2).mp hk2)))

/-- C8 at the set with the keys 1 to 4 in 7 buckets: the growing `insert(5)`
keeps the key 1, and `rehash(20)` keeps the four keys. -/
theorem C8_rehash_keeps_keys_witness :
    (insert 7 id (insert 7 id scenarioA 4).1 5).1.table_size = 15 ∧
      count id (insert 7 id (insert 7 id scenarioA 4).1 5).1 1 = 1 ∧
      (∀ k, count id (rehash 7 id (insert 7 id scenarioA 4).1 20) k =
        count id (insert 7 id scenarioA 4).1 k) ∧
      size (rehash 7 id (insert 7 id scenarioA 4).1 20) = size (insert 7 id scenarioA 4).1 :=
  have h := C8_rehash_keeps_keys 7 id (by decide) (insert 7 id scenarioA 4).1
    (Reachable.insert 4 scenarioA_reachable)
  ⟨by decide, h.2.2 5 1 (by decide), (h.1 20).1, (h.1 20).2⟩

/-! ### The load factor -/

theorem to_float_pos {n : Nat} (h : 1 ≤ n) : 1 ≤ to_float n := by
  have := to_float_mono h
  rwa [to_float_exact 1 (by norm_num)] at this

/-- The third term of the capacity `rehash` chooses is at most twice the
table size, for a size that passes the load test. -/
theorem size_over_max_lf_le {s t : Nat} (h : exceeds_load s t = false) :
    size_over_max_lf s ≤ 2 * t := by
  by_cases h0 : s = 0
  · subst h0
    have : size_over_max_lf 0 = 0 := by decide
    omega
  · have hpos := to_float_pos (Nat.one_le_iff_ne_zero.mpr h0)
    rw [exceeds_load_eq_false] at h
    obtain ⟨h2, _⟩ := round_int_err t
    obtain ⟨h3, _⟩ := round_int_err (to_float t * max_lf_num)
    obtain ⟨h4, _⟩ := round_sig_err (to_float s * 2 ^ 48) max_lf_num (by decide) (by
      unfold max_lf_num; norm_num; omega)
    unfold size_over_max_lf
    apply Nat.div_le_of_le_mul
    unfold mul_max_lf to_float max_lf_num at *
    generalize round_sig (round_sig s 1 * 2 ^ 48) 11744051 = Q at *
    generalize round_sig (round_sig t 1 * 11744051) 1 = P at *
    generalize round_sig t 1 = Ft at *
    generalize round_sig s 1 = Fs at *
    norm_num at *
    omega

/-- The capacity after `insert` of an absent key. -/
theorem insert_absent_table_size {N : Nat} {hasher : Key → Nat} {s : ADS_set Key}
    (h : Inv N hasher s) (k : Key) (hk : count hasher s k = 0) :
    (insert N hasher s k).1.table_size =
      if exceeds_load (s.size_ + 1) s.table_size then grow (s.size_ + 1) s.table_size
      else s.table_size := by
  rw [insert_of_not_mem N hasher s k ((count_eq_zero hasher s k).mp hk), insert__table_size]
  unfold reserve
  cases hc : exceeds_load (s.size_ + 1) s.table_size
  · simp
  · simp only [if_true, rehash_table_size]
    have h2 : 2 * s.table_size + 1 ≤ grow (s.size_ + 1) s.table_size :=
      grow_loop_ge (s.size_ + 1) _ s.table_size
    have h3 := h.ge
    have h4 := size_over_max_lf_le h.load
    have h5 : size_over_max_lf s.size_ ≤ grow (s.size_ + 1) s.table_size := by omega
    have h6 : N ≤ grow (s.size_ + 1) s.table_size := by omega
    rw [max_eq_left h5, max_eq_right h6]

/-- Inserting a range of new, pairwise distinct keys that the table holds
without growth adds them all and leaves the capacity. -/
theorem insert_range_no_growth (N : Nat) {hasher : Key → Nat} (keys : List Key) :
    ∀ {s : ADS_set Key}, WF hasher s → keys.Nodup → (∀ k ∈ keys, k ∉ s.table.flatten) →
      exceeds_load (s.size_ + keys.length) s.table_size = false →
      WF hasher (insert_range N hasher s keys) ∧
      (insert_range N hasher s keys).size_ = s.size_ + keys.length ∧
      (insert_range N hasher s keys).table_size = s.table_size ∧
      ∀ k, k ∈ (insert_range N hasher s keys).table.flatten ↔ k ∈ keys ∨ k ∈ s.table.flatten := by
  induction keys with
  | nil => intro s h _ _ _; exact ⟨h, rfl, rfl, fun k => by simp [insert_range_nil]⟩
  | cons key rest ih =>
    intro s h hnd hnew hload
    have hk : key ∉ s.table.flatten := hnew key (List.mem_cons_self _ _)
    have hres : reserve N hasher s (s.size_ + 1) = s := by
      unfold reserve
      rw [exceeds_load_mono_size (by simp) hload]
      rfl
    rw [insert_range_cons, if_pos ((h.count_zero_iff key).mpr hk), hres]
    have hw := insert__wf h key hk
    have hp := insert__perm h key
    have hnd2 := List.nodup_cons.mp hnd
    have hs : (insert_ hasher s key).1.size_ = s.size_ + 1 := by rw [insert__fst]
    have ht : (insert_ hasher s key).1.table_size = s.table_size := insert__table_size _ _ _
    obtain ⟨h1, h2, h3, h4⟩ := ih hw hnd2.2
      (by
        intro x hx hmem
        rcases List.mem_cons.mp (hp.subset hmem) with e | e
        · exact hnd2.1 (e ▸ hx)
        · exact hnew x (List.mem_cons_of_mem _ hx) e)
      (by
        rw [hs, ht]
        have : s.size_ + 1 + rest.length = s.size_ + (key :: rest).length := by
          simp only [List.length_cons]; omega
        rw [this]; exact hload)
    refine ⟨h1, ?_, ?_, ?_⟩
    · rw [h2, hs]; simp only [List.length_cons]; omega
    · rw [h3, ht]
    · intro k
      rw [h4, hp.mem_iff, List.mem_cons, List.mem_cons]
      tauto

/-- The set built by the range constructor from `n` distinct keys that `N`
buckets hold without growth. -/
theorem ctor_range_no_growth (N : Nat) (hasher : Key → Nat) (hN : 0 < N) (keys : List Key)
    (hnd : keys.Nodup) (hload : exceeds_load keys.length N = false) :
    WF hasher (ctor_range N hasher keys) ∧
      (ctor_range N hasher keys).size_ = keys.length ∧
      (ctor_range N hasher keys).table_size = N ∧
      ∀ k, k ∈ (ctor_range N hasher keys).table.flatten ↔ k ∈ keys := by
  unfold ctor_range
  rw [rehash_fresh, max_self]
  obtain ⟨h1, h2, h3, h4⟩ := insert_range_no_growth N keys (blank_wf hasher N hN) hnd
    (by intro k _; simp [blank, flatten_replicate_nil])
    (by simpa [blank] using hload)
  refine ⟨h1, by simpa [blank] using h2, h3, ?_⟩
  intro k
  rw [h4]
  simp [blank, flatten_replicate_nil]

/-- An absent key inserted into a set that holds one more key without growth. -/
theorem insert_no_growth (N : Nat) {hasher : Key → Nat} {s : ADS_set Key} (key : Key)
    (hk : count hasher s key = 0)
    (hload : exceeds_load (s.size_ + 1) s.table_size = false) :
    insert N hasher s key = ((insert_ hasher s key).1,
      ⟨(insert_ hasher s key).2, hash_of hasher (insert_ hasher s key).1 key,
        (insert_ hasher s key).1.table_size⟩, true) := by
  have hres : reserve N hasher s (s.size_ + 1) = s := by
    unfold reserve
    rw [hload]
    rfl
  rw [insert_of_not_mem N hasher s key ((count_eq_zero hasher s key).mp hk), hres]

/-- The range constructor on a list with one more, absent key at its end:
the last step is the `insert` of that key. -/
theorem ctor_range_snoc (N : Nat) (hasher : Key → Nat) (keys : List Key) (k : Key)
    (hk : count hasher (ctor_range N hasher keys) k = 0) :
    ctor_range N hasher (keys ++ [k]) = (insert N hasher (ctor_range N hasher keys) k).1 := by
  rw [insert_of_not_mem N hasher _ k ((count_eq_zero hasher _ k).mp hk)]
  unfold ctor_range at hk ⊢
  rw [insert_range_append, insert_range_cons, if_pos hk, insert_range_nil]

/-- The set built by the range constructor from the keys `0` to `n - 1`, with
the identity hash: it holds exactly these keys. -/
theorem ctor_range_range (N n : Nat) (hN : 0 < N) :
    Inv N id (ctor_range N id (List.range n)) ∧
      (ctor_range N id (List.range n)).size_ = n ∧
      ∀ k, k ∈ (ctor_range N id (List.range n)).table.flatten ↔ k < n := by
  have hr : ∀ m, Inv N id (ctor_range N id (List.range m)) :=
    fun m => reachable_inv hN (Reachable.ctor_range _)
  refine ⟨hr n, ?_⟩
  induction n with
  | zero =>
    unfold ctor_range
    rw [List.range_zero, insert_range_nil, rehash_fresh]
    simp [blank, flatten_replicate_nil]
  | succ n ih =>
    have hk : n ∉ (ctor_range N id (List.range n)).table.flatten := by
      rw [ih.2]; omega
    have hc : count id (ctor_range N id (List.range n)) n = 0 :=
      ((hr n).wf.count_zero_iff n).mpr hk
    rw [List.range_succ, ctor_range_snoc N id _ n hc,
      insert_of_not_mem N id _ n ((count_eq_zero id _ n).mp hc)]
    obtain ⟨_, h2, h3, _, _⟩ := reserve_insert__wf hN (hr n).wf n hk
    refine ⟨by rw [h3, ih.1], ?_⟩
    intro k
    rw [h2, ih.2]
    omega

/-- The range constructor on the keys `0` to `n`: the last step is
`insert(n)` into the set with the keys `0` to `n - 1`. -/
theorem ctor_range_succ (N n : Nat) (hN : 0 < N) :
    ctor_range N id (List.range (n + 1)) =
      (insert N id (ctor_range N id (List.range n)) n).1 := by
  obtain ⟨h1, _, h3⟩ := ctor_range_range N n hN
  rw [List.range_succ]
  exact ctor_range_snoc N id _ n ((h1.wf.count_zero_iff n).mpr (by rw [h3]; omega))

/-- The capacity after one more key of the range `0, 1, 2, ...`. -/
theorem ctor_range_table_size_succ (N n : Nat) (hN : 0 < N) :
    (ctor_range N id (List.range (n + 1))).table_size =
      if exceeds_load (n + 1) (ctor_range N id (List.range n)).table_size then
        grow (n + 1) (ctor_range N id (List.range n)).table_size
      else (ctor_range N id (List.range n)).table_size := by
  obtain ⟨h1, h2, h3⟩ := ctor_range_range N n hN
  rw [ctor_range_succ N n hN,
    insert_absent_table_size h1 n ((h1.wf.count_zero_iff n).mpr (by rw [h3]; omega)), h2]

/-- The set with the keys `0` to `n - 1` has `t` buckets, and `t` buckets
pass the load test for `m ≥ n` keys: the set with the keys `0` to `m - 1` has
`t` buckets. -/
theorem ctor_range_stay (N n m t : Nat) (hN : 0 < N) (hnm : n ≤ m)
    (ht : (ctor_range N id (List.range n)).table_size = t)
    (hl : exceeds_load m t = false) :
    (ctor_range N id (List.range m)).table_size = t := by
  revert hl
  induction m, hnm using Nat.le_induction with
  | base => intro _; exact ht
  | succ m _ ih =>
    intro hl
    have hm := ih (exceeds_load_mono_size (Nat.le_succ m) hl)
    rw [ctor_range_table_size_succ N m hN, hm, hl]
    rfl

/-- The set with the keys `0` to `n - 1` has `t` buckets, and `t` buckets do
not pass the load test for `n + 1` keys: the set with the keys `0` to `n` has
the capacity the loop of `reserve` ends with. -/
theorem ctor_range_step (N n m t t2 : Nat) (hN : 0 < N) (hm : m = n + 1)
    (ht : (ctor_range N id (List.range n)).table_size = t)
    (hl : exceeds_load m t = true) (hg : grow m t = t2) :
    (ctor_range N id (List.range m)).table_size = t2 := by
  subst hm
  rw [ctor_range_table_size_succ N n hN, ht, hl, if_pos rfl, hg]

theorem ctor_range_zero_table_size (N : Nat) :
    (ctor_range N id (List.range 0)).table_size = N := by
  unfold ctor_range
  rw [List.range_zero, insert_range_nil, rehash_fresh]
  simp [blank]

/-- The capacities of the default set (`N = 7`) while the keys
`0, 1, 2, ...` are added: it grows at the keys number 5, 11, 22, ..., and
with the key number 2936013 it gets 8388607 buckets, which it still has with
5872024 keys. -/
theorem default_growth :
    (ctor_range 7 id (List.range 5872024)).table_size = 8388607 := by
  have hN : 0 < 7 := by decide
  have a1 := ctor_range_stay 7 0 4 7 hN (by decide) (ctor_range_zero_table_size 7) (by decide)
  have b1 := ctor_range_step 7 4 5 7 15 hN (by decide) a1 (by decide) (by decide)
  have a2 := ctor_range_stay 7 5 10 15 hN (by decide) b1 (by decide)
  have b2 := ctor_range_step 7 10 11 15 31 hN (by decide) a2 (by decide) (by decide)
  have a3 := ctor_range_stay 7 11 21 31 hN (by decide) b2 (by decide)
  have b3 := ctor_range_step 7 21 22 31 63 hN (by decide) a3 (by decide) (by decide)
  have a4 := ctor_range_stay 7 22 44 63 hN (by decide) b3 (by decide)
  have b4 := ctor_range_step 7 44 45 63 127 hN (by decide) a4 (by decide) (by decide)
  have a5 := ctor_range_stay 7 45 88 127 hN (by decide) b4 (by decide)
  have b5 := ctor_range_step 7 88 89 127 255 hN (by decide) a5 (by decide) (by decide)
  have a6 := ctor_range_stay 7 89 178 255 hN (by decide) b5 (by decide)
  have b6 := ctor_range_step 7 178 179 255 511 hN (by decide) a6 (by decide) (by decide)
  have a7 := ctor_range_stay 7 179 357 511 hN (by decide) b6 (by decide)
  have b7 := ctor_range_step 7 357 358 511 1023 hN (by decide) a7 (by decide) (by decide)
  have a8 := ctor_range_stay 7 358 716 1023 hN (by decide) b7 (by decide)
  have b8 := ctor_range_step 7 716 717 1023 2047 hN (by decide) a8 (by decide) (by decide)
  have a9 := ctor_range_stay 7 717 1432 2047 hN (by decide) b8 (by decide)
  have b9 := ctor_range_step 7 1432 1433 2047 4095 hN (by decide) a9 (by decide) (by decide)
  have a10 := ctor_range_stay 7 1433 2866 4095 hN (by decide) b9 (by decide)
  have b10 := ctor_range_step 7 2866 2867 4095 8191 hN (by decide) a10 (by decide) (by decide)
  have a11 := ctor_range_stay 7 2867 5733 8191 hN (by decide) b10 (by decide)
  have b11 := ctor_range_step 7 5733 5734 8191 16383 hN (by decide) a11 (by decide) (by decide)
  have a12 := ctor_range_stay 7 5734 11468 16383 hN (by decide) b11 (by decide)
  have b12 := ctor_range_step 7 11468 11469 16383 32767 hN (by decide) a12 (by decide) (by decide)
  have a13 := ctor_range_stay 7 11469 22936 32767 hN (by decide) b12 (by decide)
  have b13 := ctor_range_step 7 22936 22937 32767 65535 hN (by decide) a13 (by decide) (by decide)
  have a14 := ctor_range_stay 7 22937 45874 65535 hN (by decide) b13 (by decide)
  have b14 := ctor_range_step 7 45874 45875 65535 131071 hN (by decide) a14 (by decide) (by decide)
  have a15 := ctor_range_stay 7 45875 91749 131071 hN (by decide) b14 (by decide)
  have b15 := ctor_range_step 7 91749 91750 131071 262143 hN (by decide) a15 (by decide) (by decide)
  have a16 := ctor_range_stay 7 91750 183500 262143 hN (by decide) b15 (by decide)
  have b16 := ctor_range_step 7 183500 183501 262143 524287 hN (by decide) a16 (by decide)
    (by decide)
  have a17 := ctor_range_stay 7 183501 367000 524287 hN (by decide) b16 (by decide)
  have b17 := ctor_range_step 7 367000 367001 524287 1048575 hN (by decide) a17 (by decide)
    (by decide)
  have a18 := ctor_range_stay 7 367001 734002 1048575 hN (by decide) b17 (by decide)
  have b18 := ctor_range_step 7 734002 734003 1048575 2097151 hN (by decide) a18 (by decide)
    (by decide)
  have a19 := ctor_range_stay 7 734003 1468005 2097151 hN (by decide) b18 (by decide)
  have b19 := ctor_range_step 7 1468005 1468006 2097151 4194303 hN (by decide) a19 (by decide)
    (by decide)
  have a20 := ctor_range_stay 7 1468006 2936012 4194303 hN (by decide) b19 (by decide)
  have b20 := ctor_range_step 7 2936012 2936013 4194303 8388607 hN (by decide) a20 (by decide)
    (by decide)
  exact ctor_range_stay 7 2936013 5872024 8388607 hN (by decide) b20 (by decide)

/-- A set that starts with 8388607 buckets (`N = 8388607`) still has them
with the keys 0 to 5872023. -/
theorem large_growth :
    (ctor_range 8388607 id (List.range 5872024)).table_size = 8388607 :=
  ctor_range_stay 8388607 0 5872024 8388607 (by decide) (by decide)
    (ctor_range_zero_table_size 8388607) (by decide)

/-- The set built from the keys `0` to `n - 1` with the identity hash, when
it has `t` buckets and `t` buckets hold `n + 1` keys without growth by the
test of the code, although `n + 1` is above 7/10 of `t`: the key `n` is
inserted without growth. -/
theorem insert_last_no_growth (N n m t : Nat) (hN : 0 < N) (hm : m = n + 1)
    (ht : (ctor_range N id (List.range n)).table_size = t)
    (hload : exceeds_load m t = false) (hgt : 7 * t < 10 * m) :
    Reachable N id (ctor_range N id (List.range n)) ∧
      count id (ctor_range N id (List.range n)) n = 0 ∧
      size (ctor_range N id (List.range n)) + 1 = m ∧
      (ctor_range N id (List.range n)).table_size = t ∧
      ¬ 10 * (size (ctor_range N id (List.range n)) + 1) ≤
        7 * (ctor_range N id (List.range n)).table_size ∧
      (insert N id (ctor_range N id (List.range n)) n).2.2 = true ∧
      size (insert N id (ctor_range N id (List.range n)) n).1 = m ∧
      (insert N id (ctor_range N id (List.range n)) n).1.table_size = t ∧
      ¬ 10 * size (insert N id (ctor_range N id (List.range n)) n).1 ≤
        7 * (insert N id (ctor_range N id (List.range n)) n).1.table_size := by
  subst hm
  obtain ⟨h1, h2, h4⟩ := ctor_range_range N n hN
  have h3 := ht
  have hk : count id (ctor_range N id (List.range n)) n = 0 := by
    rw [h1.wf.count_zero_iff, h4]; omega
  have hins := insert_no_growth N n hk (by rw [h2, h3]; exact hload)
  have hr : Reachable N id (ctor_range N id (List.range n)) := Reachable.ctor_range _
  generalize ctor_range N id (List.range n) = s0 at *
  rw [hins]
  have hs : (insert_ id s0 n).1.size_ = n + 1 := by rw [insert__fst, h2]
  have hts : (insert_ id s0 n).1.table_size = t := by rw [insert__table_size, h3]
  refine ⟨hr, hk, ?_, h3, ?_, rfl, hs, hts, ?_⟩
  · unfold size; rw [h2]
  · unfold size; rw [h2, h3]; omega
  · unfold size
    simp only [hs, hts]
    omega

/-- C9 as stated fails: the load test of `reserve` is computed in single
precision.  The default set (`N = 7`) built from the keys 0 to 5872023 has
8388607 buckets; the test lets the 5872025th key in without growth
(`float(8388607) * 0.7f` rounds to 5872025), and then `10 * size()` is
58720250, above `7 * table_size`, which is 58720249.  The same happens in a
set that starts with 8388607 buckets (`N = 8388607`). -/
theorem C9_load_above_seven_tenths :
    (Reachable 7 id (ctor_range 7 id (List.range 5872024)) ∧
      (insert 7 id (ctor_range 7 id (List.range 5872024)) 5872024).2.2 = true ∧
      size (insert 7 id (ctor_range 7 id (List.range 5872024)) 5872024).1 = 5872025 ∧
      (insert 7 id (ctor_range 7 id (List.range 5872024)) 5872024).1.table_size = 8388607 ∧
      ¬ 10 * size (insert 7 id (ctor_range 7 id (List.range 5872024)) 5872024).1 ≤
        7 * (insert 7 id (ctor_range 7 id (List.range 5872024)) 5872024).1.table_size) ∧
    (Reachable 8388607 id (ctor_range 8388607 id (List.range 5872024)) ∧
      (insert 8388607 id (ctor_range 8388607 id (List.range 5872024)) 5872024).2.2 = true ∧
      size (insert 8388607 id (ctor_range 8388607 id (List.range 5872024)) 5872024).1 =
        5872025 ∧
      (insert 8388607 id (ctor_range 8388607 id (List.range 5872024)) 5872024).1.table_size =
        8388607 ∧
      ¬ 10 * size (insert 8388607 id (ctor_range 8388607 id (List.range 5872024)) 5872024).1 ≤
        7 * (insert 8388607 id (ctor_range 8388607 id (List.range 5872024)) 5872024).1.table_size) :=
  have h := insert_last_no_growth 7 5872024 5872025 8388607 (by decide) (by decide)
    default_growth (by decide) (by decide)
  have g := insert_last_no_growth 8388607 5872024 5872025 8388607 (by decide) (by decide)
    large_growth (by decide) (by decide)
  ⟨⟨h.1, h.2.2.2.2.2.1, h.2.2.2.2.2.2.1, h.2.2.2.2.2.2.2.1, h.2.2.2.2.2.2.2.2⟩,
   ⟨g.1, g.2.2.2.2.2.1, g.2.2.2.2.2.2.1, g.2.2.2.2.2.2.2.1, g.2.2.2.2.2.2.2.2⟩⟩

/-- C9, amended: in every reachable set, right after an `insert` that returns
`inserted == true`, and after every element processed by `insert(range)` (the
state after the first `n` keys of the range) or by a list or range
constructor, the load test of the code does not ask for growth
(`size() > table_size * max_lf` is false in single precision); and when
`table_size` is at most `2^20` this gives `10 * size() ≤ 7 * table_size`. -/
theorem C9_load_test (N : Nat) (hasher : Key → Nat) (hN : 0 < N)
    (s : ADS_set Key) (h : Reachable N hasher s) :
    (∀ k, (insert N hasher s k).2.2 = true →
        exceeds_load (size (insert N hasher s k).1) (insert N hasher s k).1.table_size = false ∧
        ((insert N hasher s k).1.table_size ≤ 2 ^ 20 →
          10 * size (insert N hasher s k).1 ≤ 7 * (insert N hasher s k).1.table_size)) ∧
      (∀ keys n,
        insert_range N hasher s keys =
          insert_range N hasher (insert_range N hasher s (keys.take n)) (keys.drop n) ∧
        exceeds_load (size (insert_range N hasher s (keys.take n)))
          (insert_range N hasher s (keys.take n)).table_size = false ∧
        ((insert_range N hasher s (keys.take n)).table_size ≤ 2 ^ 20 →
          10 * size (insert_range N hasher s (keys.take n)) ≤
            7 * (insert_range N hasher s (keys.take n)).table_size)) ∧
      (∀ keys n,
        ctor_range N hasher keys =
          insert_range N hasher (ctor_range N hasher (keys.take n)) (keys.drop n) ∧
        exceeds_load (size (ctor_range N hasher (keys.take n)))
          (ctor_range N hasher (keys.take n)).table_size = false ∧
        ((ctor_range N hasher (keys.take n)).table_size ≤ 2 ^ 20 →
          10 * size (ctor_range N hasher (keys.take n)) ≤
            7 * (ctor_range N hasher (keys.take n)).table_size)) := by
  refine ⟨?_, ?_, ?_⟩
  · intro k _
    have hl := (reachable_inv hN (Reachable.insert k h)).load
    exact ⟨hl, fun ht => load_exact_of_float ht hl⟩
  · intro keys n
    have hl := (reachable_inv hN (Reachable.insert_range (keys.take n) h)).load
    refine ⟨?_, hl, fun ht => load_exact_of_float ht hl⟩
    rw [← insert_range_append, List.take_append_drop]
  · intro keys n
    have hr : Reachable N hasher (ctor_range N hasher (keys.take n)) :=
      Reachable.ctor_range _
    have hl := (reachable_inv hN hr).load
    refine ⟨?_, hl, fun ht => load_exact_of_float ht hl⟩
    unfold ctor_range
    rw [← insert_range_append, List.take_append_drop]

/-- C9, amended, at the set with the keys 1 to 4 in 7 buckets and the growing
`insert(5)`: afterwards 5 keys in 15 buckets. -/
theorem C9_load_test_witness :
    (insert 7 id (insert 7 id scenarioA 4).1 5).2.2 = true ∧
      size (insert 7 id (insert 7 id scenarioA 4).1 5).1 = 5 ∧
      (insert 7 id (insert 7 id scenarioA 4).1 5).1.table_size = 15 ∧
      exceeds_load (size (insert 7 id (insert 7 id scenarioA 4).1 5).1)
        (insert 7 id (insert 7 id scenarioA 4).1 5).1.table_size = false ∧
      10 * size (insert 7 id (insert 7 id scenarioA 4).1 5).1 ≤
        7 * (insert 7 id (insert 7 id scenarioA 4).1 5).1.table_size :=
  have h := C9_load_test 7 id (by decide) (insert 7 id scenarioA 4).1
    (Reachable.insert 4 scenarioA_reachable)
  ⟨by decide, by decide, by decide, (h.1 5 (by decide)).1,
   (h.1 5 (by decide)).2 (by decide)⟩

/-- C10: for reachable sets `a` and `b`, `a == b` returns (given a round for
each key of `b`), and it returns `true` exactly when `count(k)` agrees on
every key `k`; hence `b == a` returns the same value. -/
theorem C10_eq_iff_same_keys (N : Nat) (hasher : Key → Nat) (hN : 0 < N)
    (a b : ADS_set Key) (ha : Reachable N hasher a) (hb : Reachable N hasher b)
    (fuel : Nat) (hf : size b ≤ fuel) :
    (op_eq hasher fuel a b = some true ↔ ∀ k, count hasher a k = count hasher b k) ∧
      (op_eq hasher fuel a b = some false ↔ ¬ ∀ k, count hasher a k = count hasher b k) ∧
      op_eq hasher fuel b a = op_eq hasher fuel a b := by
  have ia := (reachable_inv hN ha).wf
  have ib := (reachable_inv hN hb).wf
  have hab := op_eq_spec ia ib fuel hf
  rw [hab]
  refine ⟨?_, ?_, ?_⟩
  · rw [Option.some.injEq, decide_eq_true_eq]; exact size_and_subset_iff ia ib
  · rw [Option.some.injEq, decide_eq_false_iff_not, size_and_subset_iff ia ib]
  · by_cases hs : a.size_ = b.size_
    · rw [op_eq_spec ib ia fuel (by rw [hs]; exact hf)]
      congr 1
      rw [Bool.eq_iff_iff, decide_eq_true_eq, decide_eq_true_eq,
        size_and_subset_iff ia ib, size_and_subset_iff ib ia]
      exact ⟨fun hh k => (hh k).symm, fun hh k => (hh k).symm⟩
    · have hs2 : b.size_ ≠ a.size_ := fun e => hs e.symm
      unfold op_eq
      rw [if_pos hs2]
      simp [hs]

/-- C10 at scenario A and the set built from the list 3, 2, 1, 2: the sets
are equal, whichever side each is on. -/
theorem C10_eq_iff_same_keys_witness :
    op_eq id 3 scenarioA (ctor_range 7 id [3, 2, 1, 2]) = some true ∧
      (op_eq id 3 scenarioA (ctor_range 7 id [3, 2, 1, 2]) = some true ↔
        ∀ k, count id scenarioA k = count id (ctor_range 7 id [3, 2, 1, 2]) k) ∧
      op_eq id 3 (ctor_range 7 id [3, 2, 1, 2]) scenarioA =
        op_eq id 3 scenarioA (ctor_range 7 id [3, 2, 1, 2]) :=
  have h := C10_eq_iff_same_keys 7 id (by decide) scenarioA (ctor_range 7 id [3, 2, 1, 2])
    scenarioA_reachable (Reachable.ctor_range [3, 2, 1, 2]) 3 (by decide)
  ⟨by decide, h.1, h.2.2⟩

/-- C11: the copy constructor returns on every reachable set `s` (given a
round for each key), and the copy `c` has `c == s` and `s == c` true and
`size()` equal to `s.size()`. -/
theorem C11_copy_is_equal (N : Nat) (hasher : Key → Nat) (hN : 0 < N)
    (s : ADS_set Key) (h : Reachable N hasher s) (fuel : Nat) (hf : size s ≤ fuel) :
    ∃ c, copy_ctor N hasher fuel s = some c ∧
      op_eq hasher fuel c s = some true ∧ op_eq hasher fuel s c = some true ∧
      size c = size s := by
  have hi := reachable_inv hN h
  obtain ⟨h1, h2, h3, _⟩ := copy_of_wf hi.wf
  refine ⟨copy_of hasher s, copy_ctor_returns hN h fuel hf, ?_, ?_, h3⟩
  · rw [op_eq_spec h1 hi.wf fuel hf]
    congr 1
    rw [decide_eq_true_eq]
    exact ⟨h3, fun k hk => h2.mem_iff.mpr hk⟩
  · rw [op_eq_spec hi.wf h1 fuel (by rw [h3]; exact hf)]
    congr 1
    rw [decide_eq_true_eq]
    exact ⟨h3.symm, fun k hk => h2.mem_iff.mp hk⟩

/-- C11 at scenario B (keys 1 to 5 in 15 buckets). -/
theorem C11_copy_is_equal_witness :
    ∃ c, copy_ctor 7 id 5 scenarioB = some c ∧
      op_eq id 5 c scenarioB = some true ∧ op_eq id 5 scenarioB c = some true ∧
      size c = size scenarioB :=
  C11_copy_is_equal 7 id (by decide) scenarioB scenarioB_reachable 5 (by decide)

/-! ## The capacity after a growth -/

theorem growth_seq_shift (n i : Nat) :
    growth_seq (n * 2 + 1) i = growth_seq n (i + 1) := by
  induction i with
  | zero => simp [growth_seq]; omega
  | succ i ih => simp only [growth_seq, ih]

theorem growth_seq_gt (t i : Nat) (hi : 1 ≤ i) : t < growth_seq t i := by
  induction i with
  | zero => omega
  | succ i ih =>
    simp only [growth_seq]
    cases i with
    | zero => simp only [growth_seq]; omega
    | succ i => have := ih (by omega); omega

/-- The loop of `reserve` stops at the first term of the sequence that passes
the load test for `requested_size`. -/
theorem grow_loop_first (r : Nat) (fuel n : Nat) (h : 2 * r ≤ 2 * n + 1 + fuel) :
    ∃ i, 1 ≤ i ∧ grow_loop r fuel n = growth_seq n i ∧
      exceeds_load r (growth_seq n i) = false ∧
      ∀ j, 1 ≤ j → j < i → exceeds_load r (growth_seq n j) = true := by
  induction fuel generalizing n with
  | zero =>
    have h1 : growth_seq n 1 = n * 2 + 1 := by simp only [growth_seq]; omega
    refine ⟨1, le_refl _, by rw [h1]; rfl, ?_, ?_⟩
    · rw [h1]; exact exceeds_load_of_double (by omega)
    · intro j h1 h2; omega
  | succ f ih =>
    have h1 : growth_seq n 1 = n * 2 + 1 := by simp only [growth_seq]; omega
    simp only [grow_loop]
    cases hc : exceeds_load r (n * 2 + 1)
    · refine ⟨1, le_refl _, by rw [h1]; rfl, by rw [h1]; exact hc, ?_⟩
      intro j h1 h2; omega
    · obtain ⟨i, hi1, hi2, hi3, hi4⟩ := ih (n * 2 + 1) (by omega)
      refine ⟨i + 1, by omega, ?_, ?_, ?_⟩
      · rw [← growth_seq_shift, ← hi2]; rfl
      · rw [← growth_seq_shift]; exact hi3
      · intro j hj1 hj2
        cases j with
        | zero => omega
        | succ j =>
          cases j with
          | zero => rw [h1]; exact hc
          | succ j =>
            rw [← growth_seq_shift]
            exact hi4 (j + 1) (by omega) (by omega)

theorem grow_first (r n : Nat) :
    ∃ i, 1 ≤ i ∧ grow r n = growth_seq n i ∧
      exceeds_load r (growth_seq n i) = false ∧
      ∀ j, 1 ≤ j → j < i → exceeds_load r (growth_seq n j) = true :=
  grow_loop_first r (2 * r) n (by omega)

/-- C12 as stated fails: the comparison of `reserve` is made in single
precision.  The default set (`N = 7`) built from the keys 0 to 5872023 has
5872024 keys in 8388607 buckets; `s + 1 ≤ 0.7 * t` is false (58720250 against
58720249), but the code does not grow for the next key: the capacity stays
8388607 and is no term `t_i`, `i ≥ 1`, of the sequence (the first of which,
16777215, is what the claim gives).  The same happens in a set that starts
with 8388607 buckets (`N = 8388607`). -/
theorem C12_no_growth_above_seven_tenths :
    (Reachable 7 id (ctor_range 7 id (List.range 5872024)) ∧
      count id (ctor_range 7 id (List.range 5872024)) 5872024 = 0 ∧
      size (ctor_range 7 id (List.range 5872024)) + 1 = 5872025 ∧
      (ctor_range 7 id (List.range 5872024)).table_size = 8388607 ∧
      ¬ 10 * (size (ctor_range 7 id (List.range 5872024)) + 1) ≤
        7 * (ctor_range 7 id (List.range 5872024)).table_size ∧
      (insert 7 id (ctor_range 7 id (List.range 5872024)) 5872024).1.table_size = 8388607) ∧
    (Reachable 8388607 id (ctor_range 8388607 id (List.range 5872024)) ∧
      count id (ctor_range 8388607 id (List.range 5872024)) 5872024 = 0 ∧
      size (ctor_range 8388607 id (List.range 5872024)) + 1 = 5872025 ∧
      (ctor_range 8388607 id (List.range 5872024)).table_size = 8388607 ∧
      ¬ 10 * (size (ctor_range 8388607 id (List.range 5872024)) + 1) ≤
        7 * (ctor_range 8388607 id (List.range 5872024)).table_size ∧
      (insert 8388607 id (ctor_range 8388607 id (List.range 5872024)) 5872024).1.table_size =
        8388607) ∧
    growth_seq 8388607 1 = 16777215 ∧
    ∀ i, 1 ≤ i → growth_seq 8388607 i ≠ 8388607 :=
  have h := insert_last_no_growth 7 5872024 5872025 8388607 (by decide) (by decide)
    default_growth (by decide) (by decide)
  have g := insert_last_no_growth 8388607 5872024 5872025 8388607 (by decide) (by decide)
    large_growth (by decide) (by decide)
  ⟨⟨h.1, h.2.1, h.2.2.1, h.2.2.2.1, h.2.2.2.2.1, h.2.2.2.2.2.2.2.1⟩,
   ⟨g.1, g.2.1, g.2.2.1, g.2.2.2.1, g.2.2.2.2.1, g.2.2.2.2.2.2.2.1⟩,
   by decide, fun i hi => Nat.ne_of_gt (growth_seq_gt 8388607 i hi)⟩

/-- C12, amended: in a reachable set with size `s` and capacity `t`, after
`insert` of an absent key the capacity is still `t` when the load test of the
code (`s + 1 > t * max_lf` in single precision) does not ask for growth, and
otherwise it is the first term `t_i` (`i ≥ 1`) of `t_1 = 2 * t + 1`,
`t_{i+1} = 2 * t_i + 1` that passes the test.  For a capacity `c` of at most
`2^20` the test passes exactly when `s + 1 ≤ 0.7 * c` (0.7 as the rational
7/10). -/
theorem C12_capacity_after_insert (N : Nat) (hasher : Key → Nat) (hN : 0 < N)
    (s : ADS_set Key) (h : Reachable N hasher s) (k : Key) (hk : count hasher s k = 0) :
    (exceeds_load (size s + 1) s.table_size = false →
        (insert N hasher s k).1.table_size = s.table_size) ∧
      (exceeds_load (size s + 1) s.table_size = true →
        ∃ i, 1 ≤ i ∧
          (insert N hasher s k).1.table_size = growth_seq s.table_size i ∧
          exceeds_load (size s + 1) (growth_seq s.table_size i) = false ∧
          ∀ j, 1 ≤ j → j < i →
            exceeds_load (size s + 1) (growth_seq s.table_size j) = true) ∧
      (∀ c, c ≤ 2 ^ 20 →
        (exceeds_load (size s + 1) c = false ↔ 10 * (size s + 1) ≤ 7 * c)) := by
  have hi := reachable_inv hN h
  rw [insert_absent_table_size hi k hk]
  unfold size
  refine ⟨?_, ?_, ?_⟩
  · intro hc
    rw [hc]; rfl
  · intro hc
    rw [hc]
    exact grow_first (s.size_ + 1) s.table_size
  · intro c hc
    exact ⟨fun hf => load_exact_of_float hc hf,
      fun he => float_of_load_exact (by norm_num at *; omega) he⟩

/-- C12, amended, at scenario B: five distinct keys into the default set
leave the capacity at 7 after each of the first four inserts and make it 15,
the term `t_1`, with the fifth; then `size() == 5` and all five keys are
found. -/
theorem C12_capacity_after_insert_witness :
    (insert 7 id (ctor 7 id) 1).1.table_size = 7 ∧
      (insert 7 id (insert 7 id (ctor 7 id) 1).1 2).1.table_size = 7 ∧
      scenarioA.table_size = 7 ∧ (insert 7 id scenarioA 4).1.table_size = 7 ∧
      scenarioB.table_size = 15 ∧ size scenarioB = 5 ∧
      (∀ k ∈ [1, 2, 3, 4, 5], count id scenarioB k = 1) ∧
      ∃ i, 1 ≤ i ∧
        (insert 7 id (insert 7 id scenarioA 4).1 5).1.table_size =
          growth_seq (insert 7 id scenarioA 4).1.table_size i ∧
        exceeds_load (size (insert 7 id scenarioA 4).1 + 1)
          (growth_seq (insert 7 id scenarioA 4).1.table_size i) = false ∧
        ∀ j, 1 ≤ j → j < i →
          exceeds_load (size (insert 7 id scenarioA 4).1 + 1)
            (growth_seq (insert 7 id scenarioA 4).1.table_size j) = true :=
  ⟨by decide, by decide, by decide, by decide, by decide, by decide, by decide,
   (C12_capacity_after_insert 7 id (by decide) (insert 7 id scenarioA 4).1
      (Reachable.insert 4 scenarioA_reachable) 5 (by decide)).2.1 (by decide)⟩

/-! ## The minimum capacity -/

theorem insert_table_size_le {N : Nat} {hasher : Key → Nat} {s : ADS_set Key} (hN : 0 < N)
    (h : Inv N hasher s) (key : Key) :
    s.table_size ≤ (insert N hasher s key).1.table_size := by
  by_cases hk : key ∈ front s.table (hash_of hasher s key)
  · rw [insert_of_mem N hasher s key hk]
  · rw [insert_of_not_mem N hasher s key hk]
    exact (reserve_insert__wf hN h.wf key (by rw [h.wf.mem_iff]; exact hk)).2.2.2.2

theorem insert_range_table_size_le {N : Nat} {hasher : Key → Nat} (hN : 0 < N)
    (keys : List Key) :
    ∀ {s : ADS_set Key}, Inv N hasher s →
      s.table_size ≤ (insert_range N hasher s keys).table_size := by
  induction keys with
  | nil => intro s _; exact le_refl _
  | cons key rest ih =>
    intro s h
    rw [insert_range_cons]
    split
    · rename_i hc
      have hk := (h.wf.count_zero_iff key).mp hc
      exact le_trans (reserve_insert__wf hN h.wf key hk).2.2.2.2
        (ih (reserve_insert__inv hN h key hk))
    · exact ih h

theorem erase_table_size (hasher : Key → Nat) (s : ADS_set Key) (key : Key) :
    (erase hasher s key).1.table_size = s.table_size := by
  by_cases hk : key ∈ front s.table (hash_of hasher s key)
  · obtain ⟨p, next, _, _, h3⟩ := erase_of_mem hasher s key hk
    rw [h3]
  · rw [erase_of_not_mem hasher s key hk]

/-- C13 as stated fails: `swap` and the copy assignment give a set the
`table_size` of the other set, which can be lower.  Scenario B has 15
buckets; after `swap` with, or assignment from, the default set it has 7. -/
theorem C13_operation_lowers_table_size :
    Reachable 7 id scenarioB ∧ Reachable 7 id (ctor 7 id : ADS_set Nat) ∧
      scenarioB.table_size = 15 ∧
      (swap scenarioB (ctor 7 id)).1.table_size = 7 ∧
      (∃ c, assign 7 id 0 scenarioB (ctor 7 id) = some c ∧ c.table_size = 7) ∧
      ¬ scenarioB.table_size ≤ (swap scenarioB (ctor 7 id)).1.table_size :=
  ⟨scenarioB_reachable, Reachable.ctor, by decide, by decide,
   ⟨ctor 7 id, by decide, by decide⟩, by decide⟩

/-- C13, amended: every reachable set has `table_size ≥ N` (so each
constructor, and also `swap` and assignment, leave it so); `rehash` on any
state ends with `table_size ≥ N` whatever capacity is requested;
`insert(key)`, `insert(range)`, `erase` and `clear` (when it has a result)
never lower `table_size`;
and with `N ≥ 1` the bucket index of every key is below `table_size`. -/
theorem C13_table_size_ge_N (N : Nat) (hasher : Key → Nat) (hN : 0 < N)
    (s : ADS_set Key) (h : Reachable N hasher s) :
    N ≤ s.table_size ∧
      (ctor N hasher : ADS_set Key).table_size = N ∧
      (∀ (s0 : ADS_set Key) r, N ≤ (rehash N hasher s0 r).table_size) ∧
      (∀ k, s.table_size ≤ (insert N hasher s k).1.table_size) ∧
      (∀ keys, s.table_size ≤ (insert_range N hasher s keys).table_size) ∧
      (∀ k, (erase hasher s k).1.table_size = s.table_size) ∧
      (∀ c, clear s = some c → c.table_size = s.table_size) ∧
      1 ≤ s.table_size ∧ ∀ k, hash_of hasher s k < s.table_size := by
  have hi := reachable_inv hN h
  refine ⟨hi.ge, by rw [ctor_eq]; rfl, ?_, ?_, ?_, ?_, ?_, hi.wf.pos, ?_⟩
  · intro s0 r
    rw [rehash_table_size]; exact le_max_left _ _
  · intro k; exact insert_table_size_le hN hi k
  · intro keys; exact insert_range_table_size_le hN keys hi
  · intro k; exact erase_table_size hasher s k
  · intro c hc
    rw [(clear_some s c hi.wf.len hc).1]; rfl
  · intro k; exact Nat.mod_lt _ hi.wf.pos

/-- C13, amended, at scenario B. -/
theorem C13_table_size_ge_N_witness :
    7 ≤ scenarioB.table_size ∧
      (ctor 7 id : ADS_set Nat).table_size = 7 ∧
      (∀ (s0 : ADS_set Nat) r, 7 ≤ (rehash 7 id s0 r).table_size) ∧
      (∀ k, scenarioB.table_size ≤ (insert 7 id scenarioB k).1.table_size) ∧
      (∀ keys, scenarioB.table_size ≤ (insert_range 7 id scenarioB keys).table_size) ∧
      (∀ k, (erase id scenarioB k).1.table_size = scenarioB.table_size) ∧
      (∀ c, clear scenarioB = some c → c.table_size = scenarioB.table_size) ∧
      1 ≤ scenarioB.table_size ∧ ∀ k, hash_of id scenarioB k < scenarioB.table_size :=
  C13_table_size_ge_N 7 id (by decide) scenarioB scenarioB_reachable

/-! ## clear -/

theorem begin_eq_end_of_empty (s : ADS_set Key) (hlen : s.table.length = s.table_size)
    (he : s.table.flatten = []) : begin s = end_ s := by
  obtain ⟨h1, h2⟩ := begin_spec s hlen
  have hnil : (begin s).listPos = [] := by
    rw [he] at h2
    unfold remaining at h2
    exact (List.append_eq_nil.mp h2).1
  by_contra hne
  exact ((valid_ne_end_iff hlen h1).mp hne) hnil

/-- C14, on the code: in a reachable set with a bucket of two or more keys,
`clear()` reads a node it has deleted and has no state after it, so nothing
of what the claim says holds there.  Where every bucket has at most one key,
`clear()` ends and leaves `size() == 0`, `empty()`, every chain head empty,
`count(k) == 0` for every key, `begin() == end()` and the `table_size` of
before. -/
theorem C14_clear_fails_on_long_chain (N : Nat) (hasher : Key → Nat) (hN : 0 < N)
    (s : ADS_set Key) (h : Reachable N hasher s) :
    ((∃ i, 2 ≤ (front s.table i).length) → clear s = none) ∧
      ((∀ i, (front s.table i).length ≤ 1) →
        ∃ c, clear s = some c ∧ size c = 0 ∧ empty c = true ∧
          (∀ i, front c.table i = []) ∧ (∀ k, count hasher c k = 0) ∧
          begin c = end_ c ∧ c.table_size = s.table_size) := by
  have hi := reachable_inv hN h
  refine ⟨fun hl => clear_of_long s hi.wf.len hl, fun hs => ?_⟩
  have hf : ∀ i, front (blank s.table_size : ADS_set Key).table i = [] :=
    fun i => front_replicate_nil _ i
  refine ⟨blank s.table_size, clear_of_short s hi.wf.len hs, rfl, rfl, hf, ?_, ?_, rfl⟩
  · intro k
    rw [count_eq_zero, hf]; simp
  · apply begin_eq_end_of_empty
    · simp [blank]
    · exact flatten_replicate_nil _

/-- C14, on the code, at scenario A after `insert(8)`, where bucket 1 holds 8
and 1: `clear()` has no result. -/
theorem C14_clear_fails_on_long_chain_witness :
    front (insert 7 id scenarioA 8).1.table 1 = [8, 1] ∧
      clear (insert 7 id scenarioA 8).1 = none :=
  ⟨by decide,
   (C14_clear_fails_on_long_chain 7 id (by decide) (insert 7 id scenarioA 8).1
      (Reachable.insert 8 scenarioA_reachable)).1 ⟨1, by decide⟩⟩

/-! ## dump -/

theorem dump_chain_eq (show_key : Key → String) (o : String) (chain : List Key) :
    dump_chain show_key o chain = o ++ keys_text show_key chain := by
  induction chain generalizing o with
  | nil => simp [dump_chain, keys_text]
  | cons k next ih =>
    simp only [dump_chain, keys_text, ih, String.append_assoc]

theorem dump_loop_eq (show_key : Key → String) (table : List (List Key)) (idxs : List Nat)
    (o : String) :
    idxs.foldl
      (fun o idx => dump_chain show_key (o ++ toString idx ++ ": ") (front table idx) ++ "\n")
      o = o ++ lines_text show_key table idxs := by
  induction idxs generalizing o with
  | nil => simp [lines_text]
  | cons idx idxs ih =>
    rw [List.foldl_cons, ih]
    simp only [lines_text, dump_chain_eq, String.append_assoc]

/-- C15: in every state the text written by `dump()` is the header line
`curr_size = <size_> table_size = <N>` with the template constant `N` (not
the current `table_size`), then for each bucket index from 0 to
`table_size - 1` in ascending order a line `<idx>: ` followed by ` -> <key>`
for each key of the chain from head to tail. -/
theorem C15_dump_format (N : Nat) (show_key : Key → String) (s : ADS_set Key) :
    dump N show_key s = dump_text N show_key s := by
  unfold dump dump_text
  rw [dump_loop_eq]

theorem dump_scenarioA :
    dump 7 toString scenarioA =
      "curr_size = 3 table_size = 7\n0: \n1:  -> 1\n2:  -> 2\n3:  -> 3\n4: \n5: \n6: \n" := by
  decide

theorem dump_scenarioB :
    scenarioB.table_size = 15 ∧
    dump 7 toString scenarioB =
      "curr_size = 5 table_size = 7\n0: \n1:  -> 1\n2:  -> 2\n3:  -> 3\n4:  -> 4\n5:  -> 5\n6: \n7: \n8: \n9: \n10: \n11: \n12: \n13: \n14: \n" := by
  decide

/-! ## The capacity rehash chooses -/

theorem remaining_eq_nil_iff (t : List (List Key)) (it : Iterator Key)
    (h : Iterator.Valid t it) : remaining t it = [] ↔ it.listPos = [] := by
  constructor
  · intro hr
    unfold remaining at hr
    exact (List.append_eq_nil.mp hr).1
  · exact remaining_of_nil t it h

theorem deref_eq_head_remaining (t : List (List Key)) (it : Iterator Key)
    (h : Iterator.Valid t it) : deref it = (remaining t it).head? := by
  unfold deref
  cases hl : it.listPos with
  | nil => rw [(remaining_eq_nil_iff t it h).mpr hl]
  | cons k next => simp [remaining, hl]

/-- After `j` advances a valid iterator is valid and has passed exactly `j`
keys. -/
theorem advance_spec (t : List (List Key)) :
    ∀ (j : Nat) (it : Iterator Key), Iterator.Valid t it → j ≤ (remaining t it).length →
      ∃ it2, advance t j it = some it2 ∧ Iterator.Valid t it2 ∧
        remaining t it2 = (remaining t it).drop j := by
  intro j
  induction j with
  | zero => intro it hv _; exact ⟨it, rfl, hv, rfl⟩
  | succ j ih =>
    intro it hv hj
    have hne : it.listPos ≠ [] := by
      intro hnil
      rw [remaining_of_nil t it hv hnil] at hj
      simp at hj
    obtain ⟨key, next, _, h2, h3, h4⟩ := step_spec t it hv hne
    rw [h4] at hj
    obtain ⟨it2, h5, h6, h7⟩ := ih next h3 (by simpa using hj)
    refine ⟨it2, ?_, h6, ?_⟩
    · simp only [advance, h2]; exact h5
    · rw [h7, h4, List.drop_succ_cons]

theorem skipToNext_end (s : ADS_set Key) :
    skipToNext s.table (end_ s) = some (end_ s) := by
  rw [end_eq]; simp [skipToNext]

theorem insert__front (hasher : Key → Nat) (s : ADS_set Key) (key : Key)
    (hlt : hash_of hasher s key < s.table.length) (i : Nat) :
    front (insert_ hasher s key).1.table i =
      if hash_of hasher s key = i then key :: front s.table i else front s.table i := by
  rw [insert__fst]
  simp only [front_set]
  by_cases hi : hash_of hasher s key = i
  · rw [if_pos ⟨hi, hlt⟩, if_pos hi, hi]
  · rw [if_neg (fun hh => hi hh.1), if_neg hi]

/-- C17: in every reachable set the keys met from `begin()` by `operator*`
and `operator++` are the chains of the buckets 0 to `table_size - 1`, each
from head to tail, one after the other: the traversal returns them, the
iterator after `j` advances points at the `j`-th of them, and after as many
advances as there are keys it is `end()`.  And an absent key inserted without
a rehash (the load test of `reserve` does not ask for growth; below `2^24`
buckets it does not when `size() + 1 ≤ 0.7 * table_size`) becomes the head of
the chain of its bucket, the other chains staying as they were. -/
theorem C17_iteration_order (N : Nat) (hasher : Key → Nat) (hN : 0 < N)
    (s : ADS_set Key) (h : Reachable N hasher s) :
    (∀ fuel, size s ≤ fuel →
        iterate s fuel (begin s) =
          some ((List.range s.table_size).map (front s.table)).flatten) ∧
      (∀ j (hj : j < ((List.range s.table_size).map (front s.table)).flatten.length),
        ∃ it, advance s.table j (begin s) = some it ∧ it ≠ end_ s ∧
          deref it = some (((List.range s.table_size).map (front s.table)).flatten.get ⟨j, hj⟩)) ∧
      advance s.table ((List.range s.table_size).map (front s.table)).flatten.length (begin s) =
        some (end_ s) ∧
      (∀ k, count hasher s k = 0 → exceeds_load (size s + 1) s.table_size = false →
        (insert N hasher s k).1.table_size = s.table_size ∧
        front (insert N hasher s k).1.table (hash_of hasher s k) =
          k :: front s.table (hash_of hasher s k) ∧
        ∀ i, i ≠ hash_of hasher s k →
          front (insert N hasher s k).1.table i = front s.table i) ∧
      (∀ k, count hasher s k = 0 → s.table_size < 2 ^ 24 →
        10 * (size s + 1) ≤ 7 * s.table_size →
        (insert N hasher s k).1.table_size = s.table_size ∧
        front (insert N hasher s k).1.table (hash_of hasher s k) =
          k :: front s.table (hash_of hasher s k) ∧
        ∀ i, i ≠ hash_of hasher s k →
          front (insert N hasher s k).1.table i = front s.table i) := by
  have hi := reachable_inv hN h
  have hflat : ((List.range s.table_size).map (front s.table)).flatten = s.table.flatten := by
    rw [← hi.wf.len, map_front_range]
  rw [hflat]
  obtain ⟨hv, hr⟩ := begin_spec s hi.wf.len
  have hhead : ∀ k, count hasher s k = 0 → exceeds_load (size s + 1) s.table_size = false →
      (insert N hasher s k).1.table_size = s.table_size ∧
      front (insert N hasher s k).1.table (hash_of hasher s k) =
        k :: front s.table (hash_of hasher s k) ∧
      ∀ i, i ≠ hash_of hasher s k →
        front (insert N hasher s k).1.table i = front s.table i := by
    intro k hk hload
    rw [insert_no_growth N k hk hload]
    refine ⟨insert__table_size hasher s k, ?_, ?_⟩
    · rw [insert__front hasher s k (hi.wf.hash_lt k), if_pos rfl]
    · intro i hne
      rw [insert__front hasher s k (hi.wf.hash_lt k), if_neg (fun hh => hne hh.symm)]
  refine ⟨fun fuel hf => iterate_begin hi.wf fuel hf, ?_, ?_, ?_, ?_⟩
  · intro j hj
    obtain ⟨it, h1, h2, h3⟩ := advance_spec s.table j (begin s) hv (by rw [hr]; omega)
    rw [hr] at h3
    have hne : remaining s.table it ≠ [] := by
      rw [h3]; intro h0
      have := congrArg List.length h0
      rw [List.length_drop, List.length_nil] at this; omega
    refine ⟨it, h1, ?_, ?_⟩
    · rw [valid_ne_end_iff hi.wf.len h2]
      exact fun hnil => hne ((remaining_eq_nil_iff _ _ h2).mpr hnil)
    · rw [deref_eq_head_remaining s.table it h2, h3, List.head?_drop]
      simp only [List.get_eq_getElem]
      exact List.getElem?_eq_getElem hj
  · obtain ⟨it, h1, h2, h3⟩ := advance_spec s.table s.table.flatten.length (begin s) hv
      (by rw [hr])
    rw [hr, List.drop_length] at h3
    rw [h1]
    congr 1
    by_contra hne
    exact ((valid_ne_end_iff hi.wf.len h2).mp hne) ((remaining_eq_nil_iff _ _ h2).mp h3)
  · exact hhead
  · intro k hk ht hload
    exact hhead k hk (float_of_load_exact ht hload)

/-- C17 at scenario A after `insert(8)`: the key 8 is the head of the chain
of bucket 1, before the key 1, and the traversal yields 8, 1, 2, 3. -/
theorem C17_iteration_order_witness :
    front (insert 7 id scenarioA 8).1.table (hash_of id scenarioA 8) =
        8 :: front scenarioA.table (hash_of id scenarioA 8) ∧
      iterate (insert 7 id scenarioA 8).1 4 (begin (insert 7 id scenarioA 8).1) =
        some [8, 1, 2, 3] ∧
      iterate (insert 7 id scenarioA 8).1 4 (begin (insert 7 id scenarioA 8).1) =
        some ((List.range (insert 7 id scenarioA 8).1.table_size).map
          (front (insert 7 id scenarioA 8).1.table)).flatten :=
  ⟨((C17_iteration_order 7 id (by decide) scenarioA scenarioA_reachable).2.2.2.1 8
      (by decide) (by decide)).2.1,
   by decide,
   (C17_iteration_order 7 id (by decide) (insert 7 id scenarioA 8).1
      (Reachable.insert 8 scenarioA_reachable)).1 4 (by decide)⟩

/-! ## The deallocation loop of clear -/

/-- C18, on the code: the loop of `clear` on a chain with the nodes
`n1, ..., nk` (`k ≥ 1`) does not pass exactly these nodes to `delete`.  With
one node it ends having deleted nothing, so `n1` stays allocated; with more it
deletes `n2` and then reads `n2->next` on the deleted node. -/
theorem C18_clear_chain_misses_head (k : Key) (next : List Key) :
    clear_chain (k :: next) [] ≠ ClearOutcome.done (nodes (k :: next)) ∧
      (next = [] → clear_chain (k :: next) [] = ClearOutcome.done []) ∧
      (next ≠ [] → clear_chain (k :: next) [] = ClearOutcome.use_after_free [next]) := by
  cases next with
  | nil => simp [clear_chain, nodes]
  | cons k2 rest => simp [clear_chain, nodes]

theorem clear_chain_one_node :
    clear_chain [1] [] = ClearOutcome.done [] ∧ nodes [1] = [[1]] ∧
      clear_chain [8, 1] [] = ClearOutcome.use_after_free [[1]] ∧
      nodes [8, 1] = [[8, 1], [1]] := by
  decide

/-! ## The layout of a copy -/

theorem front_cons_zero (c : List Key) (t : List (List Key)) : front (c :: t) 0 = c := by
  simp [front]

theorem front_cons_succ (c : List Key) (t : List (List Key)) (i : Nat) :
    front (c :: t) (i + 1) = front t i := by
  simp [front]

theorem table_ext_front (t u : List (List Key)) (hlen : t.length = u.length)
    (h : ∀ j, front t j = front u j) : t = u := by
  apply List.ext_getElem hlen
  intro j h1 h2
  have := h j
  rw [front_of_lt t j h1, front_of_lt u j h2] at this
  exact this

/-- The keys of a table that belong to bucket `j` are the chain of bucket
`j`, when every key sits in the bucket `g` gives it (`p` is the index of the
first cell). -/
theorem filter_flatten_bucket (g : Key → Nat) :
    ∀ (t : List (List Key)) (p : Nat), (∀ i k, k ∈ front t i → g k = p + i) →
      ∀ j, t.flatten.filter (fun k => decide (g k = p + j)) = front t j := by
  intro t
  induction t with
  | nil => intro p _ j; simp [front]
  | cons c t ih =>
    intro p hb j
    have hb2 : ∀ i k, k ∈ front t i → g k = (p + 1) + i := by
      intro i k hk
      have := hb (i + 1) k (by rw [front_cons_succ]; exact hk)
      omega
    have hc : ∀ k ∈ c, g k = p := by
      intro k hk
      have := hb 0 k (by rw [front_cons_zero]; exact hk)
      omega
    rw [List.flatten_cons, List.filter_append]
    cases j with
    | zero =>
      have h1 : c.filter (fun k => decide (g k = p + 0)) = c := by
        rw [List.filter_eq_self]
        intro k hk; simp [hc k hk]
      have h2 : t.flatten.filter (fun k => decide (g k = p + 0)) = [] := by
        rw [List.filter_eq_nil_iff]
        intro k hk
        obtain ⟨i, hi⟩ := (mem_flatten_iff_front t k).mp hk
        have := hb2 i k hi
        simp; omega
      rw [h1, h2, front_cons_zero, List.append_nil]
    | succ j =>
      have h1 : c.filter (fun k => decide (g k = p + (j + 1))) = [] := by
        rw [List.filter_eq_nil_iff]
        intro k hk
        have := hc k hk
        simp; omega
      have h2 := ih (p + 1) hb2 j
      have h3 : (fun k => decide (g k = p + (j + 1))) = (fun k => decide (g k = p + 1 + j)) := by
        funext k; congr 1; apply propext; omega
      rw [h1, h3, h2, front_cons_succ, List.nil_append]

theorem insert_all_length (hasher : Key → Nat) (s : ADS_set Key) (ks : List Key) :
    (insert_all hasher s ks).table.length = s.table.length := by
  induction ks generalizing s with
  | nil => rfl
  | cons k ks ih => rw [insert_all_cons, ih, insert__fst]; simp

/-- The chain of bucket `j` after `insert_all`: the inserted keys of this
bucket, last inserted first, in front of the old chain. -/
theorem insert_all_front (hasher : Key → Nat) (l : List Key) :
    ∀ (a : ADS_set Key), a.table.length = a.table_size → 0 < a.table_size → ∀ j,
      front (insert_all hasher a l).table j =
        (l.filter (fun k => decide (hasher k % a.table_size = j))).reverse ++
          front a.table j := by
  induction l with
  | nil => intro a _ _ j; simp [insert_all_nil]
  | cons k l ih =>
    intro a hlen hpos j
    have hlt : hash_of hasher a k < a.table.length := by
      rw [hlen]; exact Nat.mod_lt _ hpos
    rw [insert_all_cons,
      ih (insert_ hasher a k).1 (by rw [insert__fst]; simpa using hlen)
        (by rw [insert__table_size]; exact hpos) j,
      insert__table_size, insert__front hasher a k hlt j, List.filter_cons]
    by_cases hj : hasher k % a.table_size = j
    · have : hash_of hasher a k = j := hj
      simp [hj, this]
    · have : ¬ hash_of hasher a k = j := hj
      simp [hj, this]

/-- The table of a copy: every chain of the source, reversed. -/
theorem copy_of_table {hasher : Key → Nat} {s : ADS_set Key} (h : WF hasher s) :
    (copy_of hasher s).table = s.table.map List.reverse := by
  apply table_ext_front
  · simp [copy_of, insert_all_length, blank, h.len]
  · intro j
    have h1 := insert_all_front hasher s.table.flatten (blank s.table_size)
      (by simp [blank]) h.pos j
    have h2 := filter_flatten_bucket (fun k => hasher k % s.table_size) s.table 0
      (by intro i k hk; simpa using h.bucket i k hk) j
    simp only [Nat.zero_add] at h2
    have h3 : front (copy_of hasher s).table j = (front s.table j).reverse := by
      simpa [copy_of, blank, front_replicate_nil, h2] using h1
    rw [h3]
    unfold front
    rw [List.getElem?_map]
    cases s.table[j]? <;> simp

theorem copy_of_copy_of {hasher : Key → Nat} {s : ADS_set Key} (h : WF hasher s) :
    copy_of hasher (copy_of hasher s) = s := by
  obtain ⟨h1, _, h3, h4⟩ := copy_of_wf h
  obtain ⟨_, _, h5, h6⟩ := copy_of_wf h1
  have ht : (copy_of hasher (copy_of hasher s)).table = s.table := by
    rw [copy_of_table h1, copy_of_table h, List.map_map]
    have : (List.reverse ∘ List.reverse : List Key → List Key) = id := by
      funext l; simp
    rw [this, List.map_id]
  cases s with
  | mk table size_ table_size =>
    cases hc : copy_of hasher (copy_of hasher ({ table := table, size_ := size_, table_size := table_size } : ADS_set Key)) with
    | mk t2 s2 ts2 =>
      rw [hc] at ht h5 h6
      simp only at ht h5 h6 h3 h4
      rw [ht, h5, h6, h3, h4]

/-- Reversing every chain changes the order of the keys when a chain has two
or more keys and no key is stored twice. -/
theorem flatten_map_reverse_ne (t : List (List Key)) (hnd : t.flatten.Nodup)
    (h2 : ∃ chain ∈ t, 2 ≤ chain.length) :
    (t.map List.reverse).flatten ≠ t.flatten := by
  induction t with
  | nil => simp at h2
  | cons c t ih =>
    intro heq
    rw [List.map_cons, List.flatten_cons, List.flatten_cons] at heq
    have hinj := List.append_inj heq (by simp)
    rw [List.flatten_cons] at hnd
    obtain ⟨chain, hmem, hlen⟩ := h2
    rcases List.mem_cons.mp hmem with hc | hc
    · subst hc
      have hcn : chain.Nodup := (List.nodup_append.mp hnd).1
      match chain, hinj.1, hcn, hlen with
      | a :: b :: rest, hrev, hcn2, _ =>
        have hlast : (a :: b :: rest).reverse.getLast? = some a := by
          rw [List.getLast?_reverse]; rfl
        rw [hrev] at hlast
        have hmem2 : a ∈ b :: rest := by
          have : (a :: b :: rest).getLast? = (b :: rest).getLast? := by
            simp [List.getLast?_cons_cons]
          rw [this] at hlast
          exact List.mem_of_getLast?_eq_some hlast
        exact (List.nodup_cons.mp hcn2).1 hmem2
    · exact ih (List.nodup_append.mp hnd).2.1 ⟨chain, hc, hlen⟩ hinj.2

theorem front_map_reverse (t : List (List Key)) (i : Nat) :
    front (t.map List.reverse) i = (front t i).reverse := by
  unfold front
  rw [List.getElem?_map]
  cases t[i]? <;> simp

/-- C19: the copy `c` of a reachable set `s` has the `table_size` of `s`, and
its chain of every bucket is the chain of `s` reversed; so when some bucket of
`s` holds two or more keys the traversals of `c` and of `s` yield the keys in
different orders; and the copy of `c` is `s` again, layout and iteration
order included. -/
theorem C19_copy_reverses_chains (N : Nat) (hasher : Key → Nat) (hN : 0 < N)
    (s : ADS_set Key) (h : Reachable N hasher s) (fuel : Nat) (hf : size s ≤ fuel) :
    ∃ c, copy_ctor N hasher fuel s = some c ∧
      c.table_size = s.table_size ∧
      (∀ i, front c.table i = (front s.table i).reverse) ∧
      ((∃ i, 2 ≤ (front s.table i).length) →
        ∃ kc ks, iterate c fuel (begin c) = some kc ∧
          iterate s fuel (begin s) = some ks ∧ kc ≠ ks) ∧
      copy_ctor N hasher fuel c = some s := by
  have hi := reachable_inv hN h
  have hcopy := copy_ctor_returns hN h fuel hf
  have hrc : Reachable N hasher (copy_of hasher s) := Reachable.copy_ctor fuel h hcopy
  obtain ⟨h1, _, h3, h4⟩ := copy_of_wf hi.wf
  have htab := copy_of_table hi.wf
  refine ⟨copy_of hasher s, hcopy, h4, ?_, ?_, ?_⟩
  · intro i; rw [htab, front_map_reverse]
  · rintro ⟨i, hlen⟩
    refine ⟨_, _, iterate_begin h1 fuel (by rw [h3]; exact hf),
      iterate_begin hi.wf fuel hf, ?_⟩
    rw [htab]
    apply flatten_map_reverse_ne s.table hi.wf.nodup
    have hlt : i < s.table.length := by
      by_contra hge
      rw [front_of_ge s.table i (by omega)] at hlen
      simp at hlen
    rw [front_of_lt s.table i hlt] at hlen
    exact ⟨s.table[i], List.getElem_mem hlt, hlen⟩
  · rw [copy_ctor_returns hN hrc fuel (by rw [h3]; exact hf), copy_of_copy_of hi.wf]

/-- C19 at scenario A after `insert(8)`, where bucket 1 holds 8 and 1: the
copy holds 1 and 8 there, and the copy of the copy is the set itself. -/
theorem C19_copy_reverses_chains_witness :
    front (insert 7 id scenarioA 8).1.table 1 = [8, 1] ∧
      ∃ c, copy_ctor 7 id 4 (insert 7 id scenarioA 8).1 = some c ∧
        c.table_size = (insert 7 id scenarioA 8).1.table_size ∧
        front c.table 1 = [1, 8] ∧
        (∃ kc ks, iterate c 4 (begin c) = some kc ∧
          iterate (insert 7 id scenarioA 8).1 4 (begin (insert 7 id scenarioA 8).1) = some ks ∧
          kc ≠ ks) ∧
        copy_ctor 7 id 4 c = some (insert 7 id scenarioA 8).1 := by
  obtain ⟨c, h1, h2, h3, h4, h5⟩ :=
    C19_copy_reverses_chains 7 id (by decide) (insert 7 id scenarioA 8).1
      (Reachable.insert 8 scenarioA_reachable) 4 (by decide)
  exact ⟨by decide, c, h1, h2, by rw [h3 1]; decide, h4 ⟨1, by decide⟩, h5⟩

/-! ## Iterators stay valid -/

theorem find_valid {hasher : Key → Nat} {s : ADS_set Key} (h : WF hasher s) (k : Key) :
    Iterator.Valid s.table (find hasher s k) := by
  unfold find
  by_cases hm : k ∈ front s.table (hash_of hasher s k)
  · obtain ⟨next, h1, h2⟩ := find_loop_head k _ hm
    have hf : find_ hasher s k = k :: next := h1
    simp only [hf, ne_eq, reduceCtorEq, not_false_eq_true, if_true]
    exact ⟨h.len.symm, Or.inr ⟨h.hash_lt k, by simp, h2⟩⟩
  · have hf : find_ hasher s k = [] := (find_loop_eq_nil k _).mpr hm
    simp only [hf, ne_eq, not_true_eq_false, if_false]
    rw [end_eq]
    exact ⟨h.len.symm, Or.inl ⟨h.len.symm, rfl⟩⟩

theorem end_valid {hasher : Key → Nat} {s : ADS_set Key} (h : WF hasher s) :
    Iterator.Valid s.table (end_ s) := by
  rw [end_eq]
  exact ⟨h.len.symm, Or.inl ⟨h.len.symm, rfl⟩⟩

theorem insert_iterator_valid {N : Nat} {hasher : Key → Nat} {s0 : ADS_set Key} (hN : 0 < N)
    (h : Inv N hasher s0) (k : Key) :
    Iterator.Valid (insert N hasher s0 k).1.table (insert N hasher s0 k).2.1 := by
  by_cases hk : k ∈ front s0.table (hash_of hasher s0 k)
  · rw [insert_of_mem N hasher s0 k hk]
    exact find_valid h.wf k
  · rw [insert_of_not_mem N hasher s0 k hk]
    obtain ⟨h1, _, _, _, _⟩ := reserve_wf hN h.wf (s0.size_ + 1)
    have hw := (reserve_insert__wf hN h.wf k (by rw [h.wf.mem_iff]; exact hk)).1
    refine ⟨hw.len.symm, Or.inr ⟨?_, ?_, ?_⟩⟩
    · exact hw.hash_lt k
    · rw [insert__snd]; simp
    · simp only []
      unfold hash_of
      rw [insert__table_size]
      have := insert__front hasher (reserve N hasher s0 (s0.size_ + 1)) k (h1.hash_lt k)
        (hash_of hasher (reserve N hasher s0 (s0.size_ + 1)) k)
      rw [if_pos rfl] at this
      unfold hash_of at this
      rw [this, insert__snd]
      exact List.suffix_refl _

/-- Every iterator a caller can hold of a set with the invariant is valid. -/
theorem iterOf_valid {N : Nat} {hasher : Key → Nat} (hN : 0 < N) {s : ADS_set Key}
    (h : Inv N hasher s) {it : Iterator Key} (hit : IterOf N hasher s it) :
    Iterator.Valid s.table it := by
  induction hit with
  | begin => exact (begin_spec s h.wf.len).1
  | end_ => exact end_valid h.wf
  | find k => exact find_valid h.wf k
  | insert s0 k hr he =>
    have := insert_iterator_valid hN (reachable_inv hN hr) k
    rw [he] at this
    exact this
  | @next it1 it2 _ hs ih =>
    by_cases hnil : it1.listPos = []
    · have he : it1 = end_ s := by
        by_contra hne
        exact ((valid_ne_end_iff h.wf.len ih).mp hne) hnil
      rw [he, skipToNext_end] at hs
      rw [← Option.some.inj hs]
      exact end_valid h.wf
    · obtain ⟨_, next, _, h2, h3, _⟩ := step_spec s.table it1 ih hnil
      rw [h2] at hs
      rw [← Option.some.inj hs]
      exact h3

/-- C20: in a reachable set `s`, every iterator from `begin()`, `end()`,
`find(k)` or `insert(k)`, or from advancing such an iterator, has a null node
exactly when its bucket position is the end sentinel, and a non-null node is a
node of the chain of the bucket it points at.  So on such an iterator that is
not `end()`, `operator*` and `operator++` read no null node, and `operator++`
on `end()` gives `end()`. -/
theorem C20_iterators_valid (N : Nat) (hasher : Key → Nat) (hN : 0 < N)
    (s : ADS_set Key) (h : Reachable N hasher s) (it : Iterator Key)
    (hit : IterOf N hasher s it) :
    (it.listPos = [] ↔ it.tablePos = it.end_) ∧
      (it.listPos ≠ [] → it.listPos <:+ front s.table it.tablePos) ∧
      (it ≠ end_ s → ∃ key it2, deref it = some key ∧ skipToNext s.table it = some it2) ∧
      (it = end_ s → skipToNext s.table it = some it) := by
  have hi := reachable_inv hN h
  have hv := iterOf_valid hN hi hit
  refine ⟨?_, ?_, ?_, ?_⟩
  · obtain ⟨h1, h2 | h2⟩ := hv
    · exact ⟨fun _ => by rw [h1, h2.1], fun _ => h2.2⟩
    · exact ⟨fun hnil => absurd hnil h2.2.1, fun he => by omega⟩
  · intro hne
    obtain ⟨_, h2 | h2⟩ := hv
    · exact absurd h2.2 hne
    · exact h2.2.2
  · intro hne
    obtain ⟨key, it2, h1, h2, _, _⟩ :=
      step_spec s.table it hv ((valid_ne_end_iff hi.wf.len hv).mp hne)
    exact ⟨key, it2, h1, h2⟩
  · intro he
    rw [he]; exact skipToNext_end s

/-- C20 at scenario A after `insert(8)`: the iterator `insert(8)` returned,
advanced once, points at the key 1 of the same chain. -/
theorem C20_iterators_valid_witness :
    skipToNext (insert 7 id scenarioA 8).1.table (insert 7 id scenarioA 8).2.1 =
        some ⟨[1], 1, 7⟩ ∧
      (([1] : List Nat) = [] ↔ 1 = 7) ∧
      (([1] : List Nat) ≠ [] → [1] <:+ front (insert 7 id scenarioA 8).1.table 1) ∧
      ((⟨[1], 1, 7⟩ : Iterator Nat) ≠ end_ (insert 7 id scenarioA 8).1 →
        ∃ key it2, deref (⟨[1], 1, 7⟩ : Iterator Nat) = some key ∧
          skipToNext (insert 7 id scenarioA 8).1.table ⟨[1], 1, 7⟩ = some it2) ∧
      ((⟨[1], 1, 7⟩ : Iterator Nat) = end_ (insert 7 id scenarioA 8).1 →
        skipToNext (insert 7 id scenarioA 8).1.table ⟨[1], 1, 7⟩ = some ⟨[1], 1, 7⟩) :=
  ⟨by decide,
   C20_iterators_valid 7 id (by decide) (insert 7 id scenarioA 8).1
     (Reachable.insert 8 scenarioA_reachable) ⟨[1], 1, 7⟩
     (IterOf.next (IterOf.insert scenarioA 8 scenarioA_reachable rfl) (by decide))⟩
end ADS
